import Mathlib

/-!
Verification of the `compleat-context` data-preparation pipeline.

This file shallowly embeds the pure core of `src/ccx/commands/build.py` and
`src/ccx/commands/build_spellbook.py`: record normalization, the playability
filter, double-faced-card text merging, trim/dedupe, price aggregation, the
size-bounded JSONL/Markdown writers, and the alphabetical CSV splitter.
File-system and network I/O are elided; every embedded function is a pure
function of the record values, mirroring the Python control flow.

Machine reals (Python floats) are modelled as `ℚ`: all price arithmetic the
claims exercise is exact decimal arithmetic at cent granularity.
-/

/-! ## Basic string helpers -/

/-- Decimal digit character, as in Python's `str` of a digit (0 ≤ n ≤ 9). -/
def digitChar (n : Nat) : Char :=
  match n with
  | 0 => '0' | 1 => '1' | 2 => '2' | 3 => '3' | 4 => '4'
  | 5 => '5' | 6 => '6' | 7 => '7' | 8 => '8' | _ => '9'

/-- Lowercase hex digit character (0 ≤ n ≤ 15), as used by Python's json
`\u00XX` escapes. -/
def hexDigitChar (n : Nat) : Char :=
  match n with
  | 0 => '0' | 1 => '1' | 2 => '2' | 3 => '3' | 4 => '4'
  | 5 => '5' | 6 => '6' | 7 => '7' | 8 => '8' | 9 => '9'
  | 10 => 'a' | 11 => 'b' | 12 => 'c' | 13 => 'd' | 14 => 'e' | _ => 'f'

/-- Decimal digits with structural fuel (`fuel > n` suffices since the
argument shrinks by a factor of ten each step); structural recursion keeps
the definition kernel-reducible. -/
def natDigitsAux : Nat → Nat → List Char
  | 0, _ => []
  | fuel + 1, n =>
    if n < 10 then [digitChar n]
    else natDigitsAux fuel (n / 10) ++ [digitChar (n % 10)]

/-- Decimal digits of a natural number, most significant first
(Python `str(n)` for `n ≥ 0`). -/
def natDigits (n : Nat) : List Char := natDigitsAux (n + 1) n

/-- Python `str(n)` for a natural number. -/
def natRepr (n : Nat) : String := String.mk (natDigits n)

/-- Python `str(i)` for an integer. -/
def intRepr (i : Int) : String :=
  if i < 0 then "-" ++ natRepr i.natAbs else natRepr i.toNat

/-- Python `sep.join(parts)`. -/
def joinSep (sep : String) : List String → String
  | [] => ""
  | [x] => x
  | x :: y :: xs => x ++ sep ++ joinSep sep (y :: xs)

/-- Python's `sub in s` on character lists: `sub` occurs contiguously in `l`. -/
def listContainsSub : List Char → List Char → Bool
  | [], sub => sub.isEmpty
  | c :: rest, sub => sub.isPrefixOf (c :: rest) || listContainsSub rest sub

/-- Python `sub in s` substring test on strings. -/
def strContainsSub (s sub : String) : Bool :=
  listContainsSub s.data sub.data

/-- Number of bytes of the UTF-8 encoding of one character
(Python `len(ch.encode("utf-8"))`). -/
def charUtf8Len (c : Char) : Nat :=
  if c.val < 0x80 then 1
  else if c.val < 0x800 then 2
  else if c.val < 0x10000 then 3
  else 4

/-- Python `len(s.encode("utf-8"))`. -/
def utf8Len (s : String) : Nat := (s.data.map charUtf8Len).sum

/-! ## JSON serialization (Python `json.dumps(..., ensure_ascii=False)`)

`build_spellbook.write_jsonl_files` serializes each combo with
`json.dumps(combo, ensure_ascii=False)` — note: with Python's *default*
separators `", "` and `": "`, not the compact `(",", ":")` separators that
`build.to_json` uses. -/

/-- Escape of one character inside a JSON string, per Python's
`json.dumps(..., ensure_ascii=False)`: backslash, double-quote and control
characters are escaped, everything else (including non-ASCII) is kept. -/
def escapeJChar (c : Char) : List Char :=
  if c = '\\' then ['\\', '\\']
  else if c = '"' then ['\\', '"']
  else if c.val < 0x20 then
    if c = '\x08' then ['\\', 'b']
    else if c = '\x09' then ['\\', 't']
    else if c = '\x0a' then ['\\', 'n']
    else if c = '\x0c' then ['\\', 'f']
    else if c = '\x0d' then ['\\', 'r']
    else ['\\', 'u', '0', '0', hexDigitChar (c.toNat / 16), hexDigitChar (c.toNat % 16)]
  else [c]

/-- JSON encoding of a string value (quotes plus escaped content), per
`json.dumps(s, ensure_ascii=False)`. -/
def encodeJString (s : String) : String :=
  String.mk ('"' :: ((s.data.map escapeJChar).flatten ++ ['"']))

/-- One serialized `"key": value` member for an optional field; absent fields
produce nothing (Python only inserts keys that are present). -/
def jField {α : Type} (k : String) (f : α → String) : Option α → List String
  | some v => [encodeJString k ++ ": " ++ f v]
  | none => []

/-- JSON object of string keys and string values, default separators. -/
def dumpStrMap (m : List (String × String)) : String :=
  "\x7b" ++ joinSep ", " (m.map fun kv => encodeJString kv.1 ++ ": " ++ encodeJString kv.2) ++ "\x7d"

/-- JSON array, default separators. -/
def dumpArr {α : Type} (f : α → String) (l : List α) : String :=
  "[" ++ joinSep ", " (l.map f) ++ "]"

/-! ## Combo data model (`build_spellbook.py`) -/

/-- Projected card reference inside a normalized combo's `uses` list:
the recognized sub-fields `name`, `oracleId`, `typeLine` of `uses[].card`. -/
structure CardInfo where
  name : Option String := none
  oracleId : Option String := none
  typeLine : Option String := none
deriving DecidableEq

/-- Projected feature inside a normalized combo's `produces` list
(`produces[].feature.name`). -/
structure Feature where
  name : String
deriving DecidableEq

/-- A normalized combo record, the output shape of `parse_spellbook_combos`:
passthrough scalar fields (each present or absent, mirroring Python dict
keys), plus the projected `uses` and `produces` lists. -/
structure NormCombo where
  id : Option String := none
  status : Option String := none
  identity : Option String := none
  manaNeeded : Option String := none
  manaValueNeeded : Option Int := none
  description : Option String := none
  notes : Option String := none
  popularity : Option Int := none
  bracketTag : Option Int := none
  legalities : Option (List (String × String)) := none
  prices : Option (List (String × String)) := none
  variantCount : Option Int := none
  uses : Option (List CardInfo) := none
  produces : Option (List Feature) := none
  requires : Option String := none
  includes : Option String := none
deriving DecidableEq

/-- Serialized member of the normalized combo's `uses` array
(insertion order `name`, `oracleId`, `typeLine`, as in the source). -/
def dumpCardInfo (ci : CardInfo) : String :=
  "\x7b" ++ joinSep ", "
    (jField "name" encodeJString ci.name ++
     jField "oracleId" encodeJString ci.oracleId ++
     jField "typeLine" encodeJString ci.typeLine) ++ "\x7d"

/-- Serialized member of the normalized combo's `produces` array. -/
def dumpFeature (f : Feature) : String :=
  "\x7b" ++ encodeJString "name" ++ ": " ++ encodeJString f.name ++ "\x7d"

/-- Python `json.dumps(combo, ensure_ascii=False)` on a normalized combo:
present fields in dict insertion order (the order `parse_spellbook_combos`
inserts them), default separators `", "` / `": "`. -/
def dumpCombo (c : NormCombo) : String :=
  "\x7b" ++ joinSep ", "
    (jField "id" encodeJString c.id ++
     jField "status" encodeJString c.status ++
     jField "identity" encodeJString c.identity ++
     jField "manaNeeded" encodeJString c.manaNeeded ++
     jField "manaValueNeeded" intRepr c.manaValueNeeded ++
     jField "description" encodeJString c.description ++
     jField "notes" encodeJString c.notes ++
     jField "popularity" intRepr c.popularity ++
     jField "bracketTag" intRepr c.bracketTag ++
     jField "legalities" dumpStrMap c.legalities ++
     jField "prices" dumpStrMap c.prices ++
     jField "variantCount" intRepr c.variantCount ++
     jField "uses" (dumpArr dumpCardInfo) c.uses ++
     jField "produces" (dumpArr dumpFeature) c.produces ++
     jField "requires" encodeJString c.requires ++
     jField "includes" encodeJString c.includes) ++ "\x7d"

/-! ## Streaming combo normalization (`parse_spellbook_combos`) -/

/-- Raw nested card object `uses[].card` of the source document. -/
structure RawCard where
  name : Option String := none
  oracleId : Option String := none
  typeLine : Option String := none

/-- Raw `uses` entry; `card = none` models the entry having no `card` key
(or a non-dict value, which the source's `isinstance` check also rejects). -/
structure RawUseItem where
  card : Option RawCard := none

/-- Raw nested feature object `produces[].feature`. -/
structure RawFeature where
  name : Option String := none

/-- Raw `produces` entry; `feature = none` models a missing/non-dict value. -/
structure RawProduceItem where
  feature : Option RawFeature := none

/-- A raw combo record from `variants.json` (fields the normalizer reads). -/
structure RawCombo where
  id : Option String := none
  status : Option String := none
  identity : Option String := none
  manaNeeded : Option String := none
  manaValueNeeded : Option Int := none
  description : Option String := none
  notes : Option String := none
  popularity : Option Int := none
  bracketTag : Option Int := none
  legalities : Option (List (String × String)) := none
  prices : Option (List (String × String)) := none
  variantCount : Option Int := none
  uses : Option (List RawUseItem) := none
  produces : Option (List RawProduceItem) := none
  requires : Option String := none
  includes : Option String := none

/-- Projection of one `uses` entry: keep `name`, `oracleId`, `typeLine` of the
nested card; the entry is kept only if `card_info` ends up non-empty
(source: `if card_info:`). -/
def projCard (item : RawUseItem) : Option CardInfo :=
  match item.card with
  | none => none
  | some card =>
    if card.name.isSome || card.oracleId.isSome || card.typeLine.isSome then
      some ⟨card.name, card.oracleId, card.typeLine⟩
    else none

/-- Projection of one `produces` entry: kept only when the nested feature
object exists and has a `name`. -/
def projFeature (item : RawProduceItem) : Option Feature :=
  match item.feature with
  | none => none
  | some f =>
    match f.name with
    | some n => some ⟨n⟩
    | none => none

/-- Normalization of one combo record (the loop body of
`parse_spellbook_combos`): copy the allow-listed top-level fields when
present, and project `uses` / `produces` entrywise, silently dropping entries
that yield no recognized sub-field. -/
def normalize_combo (c : RawCombo) : NormCombo :=
  { id := c.id
    status := c.status
    identity := c.identity
    manaNeeded := c.manaNeeded
    manaValueNeeded := c.manaValueNeeded
    description := c.description
    notes := c.notes
    popularity := c.popularity
    bracketTag := c.bracketTag
    legalities := c.legalities
    prices := c.prices
    variantCount := c.variantCount
    uses := c.uses.map (·.filterMap projCard)
    produces := c.produces.map (·.filterMap projFeature)
    requires := c.requires
    includes := c.includes }

/-- `parse_spellbook_combos`, at the record level: the streaming ijson parse
is modelled as the already-decoded list of raw `variants` items, normalized
one at a time (file and gzip handling elided). -/
def parse_spellbook_combos (variants : List RawCombo) : List NormCombo :=
  variants.map normalize_combo

/-! ## Markdown rendering (`write_markdown_files` per-combo block) -/

/-- The `- {card_name}` lines of the Cards section. -/
def mdCardLines (us : List CardInfo) : String :=
  String.join (us.map fun card => "- " ++ card.name.getD "Unknown" ++ "\n")

/-- The Markdown block built for one combo inside `write_markdown_files`
(heading, cards, produces, metadata, steps, separator rule, joined in order). -/
def mdRender (c : NormCombo) : String :=
  let s1 := "# " ++ c.id.getD "unknown" ++ "\n\n"
  let s2 :=
    match c.uses with
    | some us => "**Cards:**\n\n" ++ mdCardLines us ++ "\n"
    | none => ""
  let s3 :=
    match c.produces with
    | some ps =>
      if ps.isEmpty then ""
      else "**Produces:** " ++ joinSep ", " (ps.map (·.name)) ++ "\n\n"
    | none => ""
  let metadata :=
    (match c.manaNeeded with | some v => ["Mana: " ++ v] | none => []) ++
    (match c.manaValueNeeded with | some v => ["MV: " ++ intRepr v] | none => []) ++
    (match c.identity with | some v => ["Colors: " ++ v] | none => []) ++
    (match c.popularity with | some v => ["Popularity: " ++ intRepr v] | none => [])
  let s4 := if metadata.isEmpty then "" else "**" ++ joinSep ", " metadata ++ "**\n\n"
  let s5 :=
    match c.description with
    | some d => "**Steps:**\n\n" ++ d ++ "\n\n"
    | none => ""
  s1 ++ s2 ++ s3 ++ s4 ++ s5 ++ "---\n\n"

/-! ## Size-bounded writer (`write_jsonl_files` / `write_markdown_files`)

Both writers share the identical splitting loop; only the per-record
serialization and the file extension differ.  `count_tokens` is imported in
the source from `ccx.commands.build`, a definition not present under `src/`
(it is tiktoken-based per the tests); the writers are therefore parameterized
over an arbitrary token-counting function `tok`, on whose values the batching
invariants do not depend.  Likewise the two ceilings `MAX_TOKENS_PER_FILE`
and `MAX_FILE_SIZE_BYTES` (settings defaults 2,000,000 tokens and 512 MiB)
are parameters `maxT` / `maxB`.  A written file is modelled as its name
paired with the list of serialized units whose concatenation is its content.
-/

/-- Accumulator state of the splitting loop: `fileIndex` is
`current_file_index`, `lines`/`tokens`/`bytes` the current batch, and
`written` the files flushed so far in write order. -/
structure WState where
  fileIndex : Nat
  lines : List String
  tokens : Nat
  bytes : Nat
  written : List (String × List String)

/-- File name of the batch flushed at index `i`: the first file is unnumbered
(`combos{ext}`), later ones are `combos_{i}{ext}`. -/
def batchName (ext : String) (i : Nat) : String :=
  if 1 < i then "combos_" ++ natRepr i ++ ext else "combos" ++ ext

/-- One iteration of the writer loop on the next serialized `unit`: if the
current batch is non-empty and adding the unit would exceed either ceiling,
flush the batch to the next file first, then start a new batch with the unit;
otherwise append the unit to the current batch. -/
def wStep (tok byteLen : String → Nat) (maxT maxB : Nat) (ext : String)
    (st : WState) (unit : String) : WState :=
  let ut := tok unit
  let ub := byteLen unit
  if st.lines ≠ [] ∧ (maxT < st.tokens + ut ∨ maxB < st.bytes + ub) then
    { fileIndex := st.fileIndex + 1
      lines := [unit]
      tokens := ut
      bytes := ub
      written := st.written ++ [(batchName ext st.fileIndex, st.lines)] }
  else
    { st with
      lines := st.lines ++ [unit]
      tokens := st.tokens + ut
      bytes := st.bytes + ub }

/-- End of input: flush the remaining batch if it is non-empty. -/
def wFinish (ext : String) (st : WState) : List (String × List String) :=
  if st.lines ≠ [] then st.written ++ [(batchName ext st.fileIndex, st.lines)]
  else st.written

/-- The whole splitting loop on a list of pre-serialized units. -/
def runWriter (tok byteLen : String → Nat) (maxT maxB : Nat) (ext : String)
    (units : List String) : List (String × List String) :=
  wFinish ext (units.foldl (wStep tok byteLen maxT maxB ext) ⟨1, [], 0, 0, []⟩)

/-- `write_jsonl_files`: serialize each combo as one JSON line
(`json.dumps(combo, ensure_ascii=False) + "\n"`) and batch the lines under
the dual token/byte ceilings. -/
def write_jsonl_files (tok : String → Nat) (maxT maxB : Nat) (compress : Bool)
    (combos : List NormCombo) : List (String × List String) :=
  let ext := if compress then ".jsonl.gz" else ".jsonl"
  runWriter tok utf8Len maxT maxB ext (combos.map fun c => dumpCombo c ++ "\n")

/-- `write_markdown_files`: render each combo as one Markdown block and batch
the blocks under the same dual ceilings. -/
def write_markdown_files (tok : String → Nat) (maxT maxB : Nat) (compress : Bool)
    (combos : List NormCombo) : List (String × List String) :=
  let ext := if compress then ".md.gz" else ".md"
  runWriter tok utf8Len maxT maxB ext (combos.map mdRender)

/-! ## Card data model (`build.py`) -/

/-- Fixed canonical color order (`WUBRG` in `build.py` / `settings.py`). -/
def WUBRG : List String := ["W", "U", "B", "R", "G"]

/-- `colors_str`: render a color list (possibly absent) as the subsequence of
the canonical `WUBRG` order whose symbols occur in the input
(`"".join(c for c in WUBRG if c in set(lst or []))`). -/
def colors_str (lst : Option (List String)) : String :=
  String.join (WUBRG.filter fun c => decide (c ∈ lst.getD []))

/-- One face of a multi-faced card (`card_faces[]`), fields the pipeline
reads; `none` models an absent key. -/
structure Face where
  name : Option String := none
  oracle_text : Option String := none
deriving DecidableEq

/-- An oracle card record, restricted to the fields the embedded pipeline
steps read; `none` models an absent key. -/
structure Card where
  oracle_id : Option String := none
  name : Option String := none
  layout : Option String := none
  set_type : Option String := none
  set_name : Option String := none
  oracle_text : Option String := none
  type_line : Option String := none
  card_faces : Option (List Face) := none
  colors : Option (List String) := none
  color_identity : Option (List String) := none
deriving DecidableEq

/-! ## Playability filter (`filter_playable_cards`) -/

/-- The loop body of `filter_playable_cards` as a keep-predicate: a card is
kept unless its layout is in the excluded set, its set type is memorabilia,
its set name contains the substring `"Art Series"`, or it has neither oracle
text nor a type line.  Each `card.get(key, "")` is `Option.getD ""`, so an
absent tag field never matches its exclusion. -/
def playable_keep (card : Card) : Bool :=
  let layout := card.layout.getD ""
  if layout ∈ (["art_series", "token", "double_faced_token", "emblem"] : List String) then
    false
  else if card.set_type.getD "" = "memorabilia" then false
  else if strContainsSub (card.set_name.getD "") "Art Series" then false
  else if card.oracle_text.getD "" = "" ∧ card.type_line.getD "" = "" then false
  else true

/-- `filter_playable_cards`: keep exactly the cards passing every check. -/
def filter_playable_cards (cards : List Card) : List Card :=
  cards.filter playable_keep

/-! ## Double-faced card merge (`merge_dfc_oracle_text`) -/

/-- The non-empty face texts, in face order
(`[face.get("oracle_text", "") for face in card_faces if face.get("oracle_text")]`). -/
def faceTexts (faces : List Face) : List String :=
  faces.filterMap fun face =>
    match face.oracle_text with
    | some t => if t = "" then none else some t
    | none => none

/-- The loop body of `merge_dfc_oracle_text`: when the card has a non-empty
`card_faces` list with at least one non-empty face text, replace the
top-level `oracle_text` by the face texts joined with `" // "`; otherwise the
record is returned unchanged (all fields copied as-is). -/
def merge_dfc_one (card : Card) : Card :=
  match card.card_faces with
  | some faces =>
    if 0 < faces.length then
      let texts := faceTexts faces
      if texts.isEmpty then card
      else { card with oracle_text := some (joinSep " // " texts) }
    else card
  | none => card

/-- `merge_dfc_oracle_text`, mapped over the card list. -/
def merge_dfc_oracle_text (cards : List Card) : List Card :=
  cards.map merge_dfc_one

/-! ## Price parsing and aggregation (`_best_price_from_printing`,
`build_oracle_price_index`) -/

/-- Value of a digit string (digits only, most significant first). -/
def natFromDigits (ds : List Char) : Nat :=
  ds.foldl (fun acc c => acc * 10 + (c.toNat - 48)) 0

/-- Python `float(s)` restricted to plain signed decimal literals — the shape
Scryfall price strings take.  Returns `none` exactly when the string is not
an optionally signed decimal number (models the `ValueError` branch that the
source catches and skips); the value is exact in `ℚ`. -/
def pyFloat (s : String) : Option ℚ :=
  let cs := s.data
  let signed : Bool × List Char :=
    match cs with
    | '-' :: rest => (true, rest)
    | '+' :: rest => (false, rest)
    | _ => (false, cs)
  let ip := signed.2.takeWhile Char.isDigit
  let rest := signed.2.dropWhile Char.isDigit
  let mag : Option ℚ :=
    match rest with
    | [] => if ip.isEmpty then none else some (natFromDigits ip : ℚ)
    | '.' :: frac =>
      if frac.all Char.isDigit ∧ ¬(ip.isEmpty ∧ frac.isEmpty) then
        some ((natFromDigits ip : ℚ) + (natFromDigits frac : ℚ) / (10 : ℚ) ^ frac.length)
      else none
    | _ => none
  mag.map fun m => if signed.1 then -m else m

/-- The `prices` dict of one printing, restricted to the three USD keys the
source reads; `none` models an absent or JSON-null entry. -/
structure PricesDict where
  usd : Option String := none
  usd_foil : Option String := none
  usd_etched : Option String := none
deriving DecidableEq

/-- One printing from the `default_cards` dataset (fields the price
aggregation reads). -/
structure PriceCard where
  oracle_id : Option String := none
  set : Option String := none
  collector_number : Option String := none
  prices : Option PricesDict := none
deriving DecidableEq

/-- One price observation of an identity: the parsed value with its finish
and provenance — the tuple `(price_val, finish, set_code, collector_number)`
of the source. -/
structure Obs where
  val : ℚ
  finish : String
  set : String
  collector : String
deriving DecidableEq

/-- One `price_map` iteration of `_best_price_from_printing`: a price string
contributes an observation only if it is present (`prices.get` not `None`),
non-empty (Python truthiness) and parses as a number; otherwise it is
skipped. -/
def priceObs (str : Option String) (finish : String) : List (String × ℚ) :=
  match str with
  | none => []
  | some s =>
    if s = "" then []
    else
      match pyFloat s with
      | some v => [(finish, v)]
      | none => []

/-- `_best_price_from_printing`: the `(finish, value)` pairs of the `usd`,
`usd_foil`, `usd_etched` entries that parse, in `price_map` order. -/
def _best_price_from_printing (p : PricesDict) : List (String × ℚ) :=
  priceObs p.usd "nonfoil" ++ priceObs p.usd_foil "foil" ++ priceObs p.usd_etched "etched"

/-- Append one observation to its identity's group, inserting a new group at
the end on first sight (Python dict insertion-order semantics). -/
def addObs (groups : List (String × List Obs)) (key : String) (o : Obs) :
    List (String × List Obs) :=
  match groups with
  | [] => [(key, [o])]
  | (k, os) :: rest =>
    if k = key then (k, os ++ [o]) :: rest
    else (k, os) :: addObs rest key o

/-- The collection loop of `build_oracle_price_index`: group all parsed
observations by `oracle_id`, skipping printings with a falsy (absent or
empty) `oracle_id` or a missing `prices` dict. -/
def collectPrices (cards : List PriceCard) : List (String × List Obs) :=
  cards.foldl
    (fun groups card =>
      match card.oracle_id with
      | none => groups
      | some oid =>
        if oid = "" then groups
        else
          match card.prices with
          | none => groups
          | some p =>
            (_best_price_from_printing p).foldl
              (fun g fv =>
                addObs g oid ⟨fv.2, fv.1, card.set.getD "", card.collector_number.getD ""⟩)
              groups)
    []

/-- Stable insertion of an observation into a value-sorted list: the new
element goes before the first element of strictly—or equally—greater value
encountered from its own position, which together with `sortObs`'s
right-fold reproduces Python's stable ascending sort by value. -/
def insertObs (o : Obs) : List Obs → List Obs
  | [] => [o]
  | x :: xs => if o.val ≤ x.val then o :: x :: xs else x :: insertObs o xs

/-- Python's stable ascending `price_list.sort(key=lambda x: x[0])`. -/
def sortObs (l : List Obs) : List Obs := l.foldr insertObs []

/-- Stable insertion on plain rationals. -/
def insertQ (q : ℚ) : List ℚ → List ℚ
  | [] => [q]
  | x :: xs => if q ≤ x then q :: x :: xs else x :: insertQ q xs

/-- Ascending sort on rationals (as used inside `statistics.median`). -/
def sortQ (l : List ℚ) : List ℚ := l.foldr insertQ []

/-- Python `statistics.median`: middle element of the sorted values for odd
counts, average of the two middles for even counts.  (On the empty list the
source never calls it; this model returns 0 there.) -/
def pyMedian (l : List ℚ) : ℚ :=
  let s := sortQ l
  let n := s.length
  if n % 2 = 1 then s.getD (n / 2) 0
  else (s.getD (n / 2 - 1) 0 + s.getD (n / 2) 0) / 2

/-- Python `f"{x:.2f}"` for price values that are exact in cents (every value
the pipeline formats is the arithmetic of parsed two-decimal strings). -/
def fmt2 (q : ℚ) : String :=
  let cents : ℤ := round (q * 100)
  intRepr (cents / 100) ++ "." ++
    (if (cents % 100).toNat < 10 then "0" ++ natRepr (cents % 100).toNat
     else natRepr (cents % 100).toNat)

/-- Python `str.upper()` (ASCII fragment; set codes are ASCII). -/
def asciiUpper (s : String) : String := String.mk (s.data.map Char.toUpper)

/-- The aggregation record of the price index, all fields already formatted
as strings (as in the source). -/
structure PriceEntry where
  lowest_price_usd : String
  lowest_price_finish : String
  lowest_price_set : String
  lowest_price_collector : String
  median_price_usd : String
  highest_price_usd : String
  price_summary : String
deriving DecidableEq

/-- The per-identity loop body of `build_oracle_price_index`: sort the
group's observations ascending by value; the first is the cheapest (its
provenance is reported), the last value is the highest, the median is
`statistics.median` of all values; the summary joins `$low`,
`(cheapest: SET #collector, finish)` and — only when there are at least two
observations — the `Range $low–$high.` and `median $med.` clauses with
single spaces. -/
def aggregateGroup (os : List Obs) : Option PriceEntry :=
  match sortObs os with
  | [] => none
  | first :: rest =>
    let vals := (first :: rest).map Obs.val
    let lowest := first.val
    let medianPrice := pyMedian vals
    let highest := vals.getLastD 0
    let parts :=
      ["$" ++ fmt2 lowest,
       "(cheapest: " ++ asciiUpper first.set ++ " #" ++ first.collector ++ ", " ++
         first.finish ++ ")"] ++
      (if 1 < vals.length then
        ["Range $" ++ fmt2 lowest ++ "–$" ++ fmt2 highest ++ ".",
         "median $" ++ fmt2 medianPrice ++ "."]
      else [])
    some
      { lowest_price_usd := fmt2 lowest
        lowest_price_finish := first.finish
        lowest_price_set := first.set
        lowest_price_collector := first.collector
        median_price_usd := fmt2 medianPrice
        highest_price_usd := fmt2 highest
        price_summary := joinSep " " parts }

/-- `build_oracle_price_index`: the ordered association list mapping each
identity with at least one valid observation to its aggregated entry. -/
def build_oracle_price_index (cards : List PriceCard) : List (String × PriceEntry) :=
  (collectPrices cards).filterMap fun g => (aggregateGroup g.2).map fun e => (g.1, e)

/-! ## Trim and dedupe (`trim_and_dedupe_cards`) -/

/-- A trimmed card row.  The embedding keeps the fields the verified claims
read (`oracle_id`, `name`, the two flat color strings, and the mergeable
price columns); the remaining scalar copy-projections of `fields_to_keep`
(`mana_cost`, `cmc`, `rarity`, the legality columns, …) are value-for-value
copies with no effect on deduplication and are elided. -/
structure TrimmedCard where
  oracle_id : Option String := none
  name : Option String := none
  colors_str : String := ""
  color_identity_str : String := ""
  lowest_price_usd : String := ""
  lowest_price_finish : String := ""
  lowest_price_set : String := ""
  lowest_price_collector : String := ""
  median_price_usd : String := ""
  highest_price_usd : String := ""
  price_summary : String := ""
deriving DecidableEq

/-- The per-card trimming step of `trim_and_dedupe_cards`: copy the key
fields and render the flat color strings (`card.get("colors", [])` etc.). -/
def trim_card (card : Card) : TrimmedCard :=
  { oracle_id := card.oracle_id
    name := card.name
    colors_str := colors_str (some (card.colors.getD []))
    color_identity_str := colors_str (some (card.color_identity.getD [])) }

/-- `df.drop_duplicates(subset=["oracle_id"], keep="first")`: keep each row
whose key (including the shared missing-value key, which pandas also
deduplicates) was not seen earlier. -/
def dedupe_first (seen : List (Option String)) : List TrimmedCard → List TrimmedCard
  | [] => []
  | t :: rest =>
    if t.oracle_id ∈ seen then dedupe_first seen rest
    else t :: dedupe_first (t.oracle_id :: seen) rest

/-- The price-merge step: rows whose truthy `oracle_id` is in the price index
get the seven price columns overwritten from the index; other rows keep the
empty-string defaults. -/
def mergePriceFields (idx : List (String × PriceEntry)) (t : TrimmedCard) : TrimmedCard :=
  match t.oracle_id with
  | none => t
  | some oid =>
    if oid = "" then t
    else
      match List.lookup oid idx with
      | none => t
      | some e =>
        { t with
          lowest_price_usd := e.lowest_price_usd
          lowest_price_finish := e.lowest_price_finish
          lowest_price_set := e.lowest_price_set
          lowest_price_collector := e.lowest_price_collector
          median_price_usd := e.median_price_usd
          highest_price_usd := e.highest_price_usd
          price_summary := e.price_summary }

/-- `trim_and_dedupe_cards`: trim every card, deduplicate by `oracle_id`
keeping the first occurrence (only when the `oracle_id` column exists, i.e.
at least one card carried the key), and merge price data when a non-empty
price index was supplied. -/
def trim_and_dedupe_cards (cards : List Card)
    (priceIndex : Option (List (String × PriceEntry))) : List TrimmedCard :=
  let ts := cards.map trim_card
  let hasCol := ts.any fun t => t.oracle_id.isSome
  let deduped := if hasCol then dedupe_first [] ts else ts
  match priceIndex with
  | none => deduped
  | some idx =>
    if ¬idx.isEmpty ∧ hasCol then deduped.map (mergePriceFields idx) else deduped

/-! ## Alphabetical CSV split (`write_output_files`, splitting branch)

The branch is taken when the uncompressed CSV exceeds 50 MB; the trigger is a
file-system measurement and is elided — the embedding is the branch body
itself: sort by name, then bucket rows by the lowercased first letter of the
name into the fixed `a–f` / `g–n` / `o–z` ranges, emitting only non-empty
buckets. -/

/-- Name ordering used by `df.sort_values("name")` (missing names last, as
pandas sorts NaN last). -/
def nameLE (a b : TrimmedCard) : Bool :=
  match a.name, b.name with
  | none, none => true
  | none, some _ => false
  | some _, none => true
  | some x, some y => decide (x ≤ y)

/-- Insertion into a name-sorted list. -/
def insertByName (c : TrimmedCard) : List TrimmedCard → List TrimmedCard
  | [] => [c]
  | x :: xs => if nameLE c x then c :: x :: xs else x :: insertByName c xs

/-- `df.sort_values("name")`. -/
def sortCardsByName (l : List TrimmedCard) : List TrimmedCard := l.foldr insertByName []

/-- First character of the Unicode `str.lower()` of a string beginning with
this character.  Python lowercases the whole name before indexing; character
by character this is ASCII `Char.toLower` plus exactly the two code points
whose Unicode lowercase begins with an ASCII letter: U+0130 'İ' (latin
capital I with dot above, lowercasing to "i" + combining dot, so its first
character is 'i') and U+212A (the Kelvin sign, lowercasing to 'k').  Every
other non-ASCII code point lowercases to a non-ASCII code point, which the
inclusive ASCII range masks below treat exactly like the code point itself,
so those are left unchanged.  (Unicode's only context-dependent lowering,
final sigma, maps Σ into σ/ς, both non-ASCII, and never affects a mask.) -/
def pyLowerChar (c : Char) : Char :=
  if c = '\u0130' then 'i'
  else if c = '\u212A' then 'k'
  else c.toLower

/-- The bucket mask `df["name"].str.lower().str[0].between(start, end)`:
true iff the name exists, is non-empty, and the first character of the
lowercased name lies in the inclusive range (missing or empty names give
NaN, which is filtered out). -/
def firstLowerInRange (c : TrimmedCard) (s e : Char) : Bool :=
  match c.name with
  | none => false
  | some n =>
    match n.data with
    | [] => false
    | ch :: _ => decide (s ≤ pyLowerChar ch) && decide (pyLowerChar ch ≤ e)

/-- The three fixed ranges and their output file names. -/
def splitRanges : List (Char × Char × String) :=
  [('a', 'f', "scryfall_oracle_trimmed_a-f.csv.gz"),
   ('g', 'n', "scryfall_oracle_trimmed_g-n.csv.gz"),
   ('o', 'z', "scryfall_oracle_trimmed_o-z.csv.gz")]

/-- The splitting branch of `write_output_files`: each non-empty bucket
becomes one file holding the masked subset of the name-sorted rows. -/
def write_split_files (cards : List TrimmedCard) : List (String × List TrimmedCard) :=
  let df := sortCardsByName cards
  splitRanges.filterMap fun r =>
    let subset := df.filter fun c => firstLowerInRange c r.1 r.2.1
    if 0 < subset.length then some (r.2.2, subset) else none

/-! ## Claim-side and auxiliary definitions used by the verification -/

/-- Exclusion rule 1 of the claim: layout in the excluded set (a record with
no layout key matches nothing). -/
def layoutExcluded (c : Card) : Prop :=
  ∃ s, c.layout = some s ∧
    s ∈ (["art_series", "token", "double_faced_token", "emblem"] : List String)

/-- Exclusion rule 2: set type equals memorabilia. -/
def setTypeExcluded (c : Card) : Prop := c.set_type = some "memorabilia"

/-- Exclusion rule 3: the set name contains the case-sensitive substring
"Art Series". -/
def setNameExcluded (c : Card) : Prop :=
  ∃ s t u, c.set_name = some s ∧ s = t ++ "Art Series" ++ u

/-- Exclusion rule 4: both free-text fields are empty or absent. -/
def noContentExcluded (c : Card) : Prop :=
  (c.oracle_text = none ∨ c.oracle_text = some "") ∧
    (c.type_line = none ∨ c.type_line = some "")

/-- The claim-side first-occurrence filter: an element is kept iff no earlier
element (the `prev` prefix) carries the same identity key. -/
def firstOccAux (prev : List TrimmedCard) : List TrimmedCard → List TrimmedCard
  | [] => []
  | t :: rest =>
    (if prev.any (fun p => p.oracle_id == t.oracle_id) then [] else [t]) ++
      firstOccAux (prev ++ [t]) rest

/-- The claim's concrete quote group, as observations
`(set, collector, finish, value)` under one identity. -/
def exampleObs : List Obs :=
  [⟨2.95, "nonfoil", "cmr", "684"⟩,
   ⟨89.99, "nonfoil", "m21", "100"⟩,
   ⟨7.50, "nonfoil", "lea", "1"⟩]

/-- A single-quote group whose collector number contains the substrings
"Range" and "median" — the input refuting the claim's only-if direction. -/
def advObs : List Obs := [⟨1.00, "nonfoil", "x", "Range median"⟩]

/-- Expected file names for `n` flushed files: unnumbered first, then
`_2`, `_3`, … -/
def fileNames (ext : String) (n : Nat) : List String :=
  (List.range n).map fun i => batchName ext (i + 1)

/-- The loop invariant of the splitting writer: counters track the current
batch, every flushed file is non-empty, flushed files of two or more units
respect both ceilings (as does the current batch), and file names and the
running index follow the numbering scheme. -/
structure WInv (tok bl : String → Nat) (maxT maxB : Nat) (ext : String) (st : WState) : Prop where
  tokAcc : st.tokens = (st.lines.map tok).sum
  byteAcc : st.bytes = (st.lines.map bl).sum
  curOk : 2 ≤ st.lines.length → (st.lines.map tok).sum ≤ maxT ∧ (st.lines.map bl).sum ≤ maxB
  filesNonEmpty : ∀ p ∈ st.written, p.2 ≠ []
  filesOk : ∀ p ∈ st.written, 2 ≤ p.2.length →
    (p.2.map tok).sum ≤ maxT ∧ (p.2.map bl).sum ≤ maxB
  names : st.written.map Prod.fst = fileNames ext st.written.length
  idx : st.fileIndex = st.written.length + 1

/-- A string free of newline characters. -/
def noNL (s : String) : Prop := '\n' ∉ s.data

instance (s : String) : Decidable (noNL s) :=
  inferInstanceAs (Decidable ('\n' ∉ s.data))

/-- Modelled from the spec: one `"key":value` member with the compact
separator `":"` — the `(",", ":")` separators of `build.to_json`, which the
spec asserts for JSONL lines but `write_jsonl_files` does not pass to
`json.dumps`. -/
def jFieldCompact {α : Type} (k : String) (f : α → String) : Option α → List String
  | some v => [encodeJString k ++ ":" ++ f v]
  | none => []

/-- Modelled from the spec: compact string-map serialization. -/
def dumpStrMapCompact (m : List (String × String)) : String :=
  "\x7b" ++ joinSep "," (m.map fun kv => encodeJString kv.1 ++ ":" ++ encodeJString kv.2) ++ "\x7d"

/-- Modelled from the spec: compact array serialization. -/
def dumpArrCompact {α : Type} (f : α → String) (l : List α) : String :=
  "[" ++ joinSep "," (l.map f) ++ "]"

/-- Modelled from the spec: compact card-reference serialization. -/
def dumpCardInfoCompact (ci : CardInfo) : String :=
  "\x7b" ++ joinSep ","
    (jFieldCompact "name" encodeJString ci.name ++
     jFieldCompact "oracleId" encodeJString ci.oracleId ++
     jFieldCompact "typeLine" encodeJString ci.typeLine) ++ "\x7d"

/-- Modelled from the spec: compact feature serialization. -/
def dumpFeatureCompact (f : Feature) : String :=
  "\x7b" ++ encodeJString "name" ++ ":" ++ encodeJString f.name ++ "\x7d"

/-- Modelled from the spec: the compact combo serialization the spec claims
for JSONL lines ("no extraneous whitespace between tokens"). -/
def dumpComboCompact (c : NormCombo) : String :=
  "\x7b" ++ joinSep ","
    (jFieldCompact "id" encodeJString c.id ++
     jFieldCompact "status" encodeJString c.status ++
     jFieldCompact "identity" encodeJString c.identity ++
     jFieldCompact "manaNeeded" encodeJString c.manaNeeded ++
     jFieldCompact "manaValueNeeded" intRepr c.manaValueNeeded ++
     jFieldCompact "description" encodeJString c.description ++
     jFieldCompact "notes" encodeJString c.notes ++
     jFieldCompact "popularity" intRepr c.popularity ++
     jFieldCompact "bracketTag" intRepr c.bracketTag ++
     jFieldCompact "legalities" dumpStrMapCompact c.legalities ++
     jFieldCompact "prices" dumpStrMapCompact c.prices ++
     jFieldCompact "variantCount" intRepr c.variantCount ++
     jFieldCompact "uses" (dumpArrCompact dumpCardInfoCompact) c.uses ++
     jFieldCompact "produces" (dumpArrCompact dumpFeatureCompact) c.produces ++
     jFieldCompact "requires" encodeJString c.requires ++
     jFieldCompact "includes" encodeJString c.includes) ++ "\x7d"

/-! ## Substring machinery -/

/-- `List.isPrefixOf` on characters is existence of a completing suffix. -/
lemma isPrefixOf_correct : ∀ (p l : List Char), p.isPrefixOf l = true ↔ ∃ u, l = p ++ u := by
  intro p
  induction p with
  | nil => intro l; simp [List.isPrefixOf]
  | cons a as ih =>
    intro l
    cases l with
    | nil => simp [List.isPrefixOf]
    | cons b bs =>
      simp only [List.isPrefixOf, Bool.and_eq_true, beq_iff_eq, ih bs]
      constructor
      · rintro ⟨hab, u, hu⟩
        exact ⟨u, by simp [hab, hu]⟩
      · rintro ⟨u, hu⟩
        simp only [List.cons_append, List.cons.injEq] at hu
        exact ⟨hu.1.symm, u, hu.2⟩

/-- `listContainsSub` is exactly contiguous-substring occurrence. -/
lemma listContainsSub_iff : ∀ (l sub : List Char),
    listContainsSub l sub = true ↔ ∃ t u, l = t ++ sub ++ u := by
  intro l
  induction l with
  | nil =>
    intro sub
    simp only [listContainsSub, List.isEmpty_iff]
    constructor
    · rintro rfl; exact ⟨[], [], rfl⟩
    · rintro ⟨t, u, h⟩
      rcases List.append_eq_nil.mp h.symm with ⟨h1, h2⟩
      exact (List.append_eq_nil.mp h1).2
  | cons c rest ih =>
    intro sub
    simp only [listContainsSub, Bool.or_eq_true, isPrefixOf_correct, ih]
    constructor
    · rintro (⟨u, hu⟩ | ⟨t, u, h⟩)
      · exact ⟨[], u, by simp [hu]⟩
      · exact ⟨c :: t, u, by simp [h]⟩
    · rintro ⟨t, u, h⟩
      cases t with
      | nil => exact Or.inl ⟨u, by simpa using h⟩
      | cons a t' =>
        simp only [List.cons_append, List.cons.injEq] at h
        exact Or.inr ⟨t', u, h.2⟩

/-- String-level correctness of the Python `in` substring test. -/
lemma strContainsSub_iff (s sub : String) :
    strContainsSub s sub = true ↔ ∃ t u : String, s = t ++ sub ++ u := by
  unfold strContainsSub
  rw [listContainsSub_iff]
  constructor
  · rintro ⟨t, u, h⟩
    refine ⟨⟨t⟩, ⟨u⟩, String.ext ?_⟩
    simpa [String.data_append] using h
  · rintro ⟨t, u, rfl⟩
    exact ⟨t.data, u.data, by simp [String.data_append]⟩

/-- A string assembled around `sub` contains `sub`. -/
lemma strContainsSub_of_parts (t u s sub : String) (h : s = t ++ sub ++ u) :
    strContainsSub s sub = true :=
  (strContainsSub_iff s sub).mpr ⟨t, u, h⟩

/-- String append is associative. -/
lemma strAssoc (a b c : String) : a ++ b ++ c = a ++ (b ++ c) :=
  String.ext (by simp [String.data_append])

/-- The empty string is a left unit. -/
lemma strNilAppend (a : String) : "" ++ a = a :=
  String.ext (by simp [String.data_append])

/-! ## C3: `colors_str` canonical rendering -/

/-- Character data of a join of strings. -/
lemma join_data : ∀ ls : List String, (String.join ls).data = (ls.map String.data).flatten := by
  have aux : ∀ (ls : List String) (s : String),
      (List.foldl (· ++ ·) s ls).data = s.data ++ (ls.map String.data).flatten := by
    intro ls
    induction ls with
    | nil => intro s; simp
    | cons x xs ih => intro s; simp [ih, String.data_append]
  intro ls
  have h := aux ls ""
  rw [String.join]
  rw [h]
  rfl

/-- Join distributes over cons. -/
lemma join_cons (a : String) (ls : List String) :
    String.join (a :: ls) = a ++ String.join ls :=
  String.ext (by simp [join_data, String.data_append])

/-- Flattening the data of a filtered string list is a subsequence of
flattening all of it. -/
lemma filter_flatten_sublist (p : String → Bool) :
    ∀ ws : List String,
      (((ws.filter p).map String.data).flatten).Sublist ((ws.map String.data).flatten) := by
  intro ws
  induction ws with
  | nil => simp
  | cons w rest ih =>
    by_cases h : p w = true
    · simpa [List.filter_cons, h] using ih.append_left w.data
    · simp only [List.filter_cons, h]
      simp only [Bool.false_eq_true, if_false, List.map_cons, List.flatten_cons]
      exact ih.trans (List.sublist_append_right w.data _)

/-- A member of a string list is contained in the join. -/
lemma contains_join_of_mem (s : String) :
    ∀ ls : List String, s ∈ ls → strContainsSub (String.join ls) s = true := by
  intro ls
  induction ls with
  | nil => intro h; cases h
  | cons a rest ih =>
    intro h
    rw [join_cons]
    rcases List.mem_cons.mp h with rfl | hmem
    · exact strContainsSub_of_parts "" (String.join rest) _ s
        (by rw [strNilAppend])
    · obtain ⟨t, u, hd⟩ := (strContainsSub_iff _ _).mp (ih hmem)
      exact strContainsSub_of_parts (a ++ t) u _ s
        (String.ext (by simp [hd, String.data_append]))

/-- C3.  For every input color list (and for absent input), `colors_str`
returns a subsequence of the canonical "WUBRG" order; a canonical symbol
occurs in the output iff it occurs in the input, hence for inputs drawn from
the five-symbol alphabet the output contains exactly the input's distinct
symbols; and the output depends only on the input's set of symbols (it is
invariant under reordering and duplication). -/
theorem colors_str_canonical (l : Option (List String)) :
    (colors_str l).data.Sublist "WUBRG".data
    ∧ (∀ s, s ∈ WUBRG → (strContainsSub (colors_str l) s = true ↔ s ∈ l.getD []))
    ∧ ((∀ c ∈ l.getD [], c ∈ WUBRG) →
        ∀ s, s ∈ l.getD [] ↔ s ∈ WUBRG ∧ strContainsSub (colors_str l) s = true)
    ∧ (∀ l' : Option (List String),
        (∀ c, c ∈ l.getD [] ↔ c ∈ l'.getD []) → colors_str l = colors_str l') := by
  have hdata : (colors_str l).data =
      ((WUBRG.filter fun c => decide (c ∈ l.getD [])).map String.data).flatten :=
    join_data _
  have hiff : ∀ s, s ∈ WUBRG →
      (strContainsSub (colors_str l) s = true ↔ s ∈ l.getD []) := by
    intro s hs
    constructor
    · intro hc
      obtain ⟨t, u, hd⟩ := (listContainsSub_iff _ _).mp hc
      have hchar : ∀ c : Char, s.data = [c] → c ∈ (colors_str l).data := by
        intro c hsd
        rw [hd, hsd]
        simp
      have : ∃ w ∈ WUBRG.filter fun c => decide (c ∈ l.getD []),
          ∃ c : Char, s.data = [c] ∧ c ∈ w.data := by
        fin_cases hs <;>
          · obtain ⟨ld, hw, hc⟩ := List.mem_flatten.mp
              (by rw [← hdata]; exact hchar _ rfl)
            obtain ⟨w, hwf, rfl⟩ := List.mem_map.mp hw
            exact ⟨w, hwf, _, rfl, hc⟩
      obtain ⟨w, hwf, c, hsd, hcw⟩ := this
      obtain ⟨hwW, hpw⟩ := List.mem_filter.mp hwf
      have hws : w = s := by
        fin_cases hs <;> fin_cases hwW <;> simp_all
      rw [← hws]
      simpa using hpw
    · intro hmem
      apply contains_join_of_mem
      exact List.mem_filter.mpr ⟨hs, by simpa using hmem⟩
  refine ⟨?_, hiff, ?_, ?_⟩
  · rw [hdata]
    have : ("WUBRG" : String).data = (WUBRG.map String.data).flatten := by decide
    rw [this]
    exact filter_flatten_sublist _ WUBRG
  · intro halpha s
    constructor
    · intro hsin
      exact ⟨halpha s hsin, (hiff s (halpha s hsin)).mpr hsin⟩
    · rintro ⟨hW, hcont⟩
      exact (hiff s hW).mp hcont
  · intro l' hset
    show String.join _ = String.join _
    congr 1
    exact List.filter_congr fun c _ => by simp [hset c]

/-- Witness for C3 at a concrete duplicated, unordered input. -/
theorem colors_str_canonical_witness :
    ("G" : String) ∈ (some ["G", "R", "G"] : Option (List String)).getD [] ↔
      ("G" : String) ∈ WUBRG ∧
        strContainsSub (colors_str (some ["G", "R", "G"])) "G" = true :=
  (colors_str_canonical (some ["G", "R", "G"])).2.2.1 (by decide) "G"

/-! ## C4: playability filter -/

/-- The keep-predicate of the source succeeds exactly when no exclusion rule
of the claim matches. -/
lemma playable_keep_iff (c : Card) :
    playable_keep c = true ↔
      ¬(layoutExcluded c ∨ setTypeExcluded c ∨ setNameExcluded c ∨ noContentExcluded c) := by
  have hlayout : (c.layout.getD "" ∈
      (["art_series", "token", "double_faced_token", "emblem"] : List String)) ↔
      layoutExcluded c := by
    cases hc : c.layout with
    | none => simp [layoutExcluded, hc]
    | some s => simp [layoutExcluded, hc]
  have hst : (c.set_type.getD "" = "memorabilia") ↔ setTypeExcluded c := by
    cases hc : c.set_type with
    | none => simp [setTypeExcluded, hc]
    | some s => simp [setTypeExcluded, hc]
  have hsn : (strContainsSub (c.set_name.getD "") "Art Series" = true) ↔ setNameExcluded c := by
    cases hc : c.set_name with
    | none =>
      simp only [hc, Option.getD_none, setNameExcluded]
      constructor
      · intro h; exact absurd h (by decide)
      · rintro ⟨s, t, u, h, _⟩; cases h
    | some s =>
      simp only [hc, Option.getD_some, setNameExcluded, strContainsSub_iff]
      constructor
      · rintro ⟨t, u, h⟩; exact ⟨s, t, u, rfl, h⟩
      · rintro ⟨s', t, u, hs', h⟩
        cases hs'
        exact ⟨t, u, h⟩
  have hcontent : (c.oracle_text.getD "" = "" ∧ c.type_line.getD "" = "") ↔
      noContentExcluded c := by
    cases ho : c.oracle_text with
    | none => cases ht : c.type_line <;> simp [noContentExcluded, ho, ht, eq_comm]
    | some s => cases ht : c.type_line <;> simp [noContentExcluded, ho, ht, eq_comm]
  rw [playable_keep]
  split_ifs with h1 h2 h3 h4
  · simp only [Bool.false_eq_true, false_iff, not_not]
    exact Or.inl (hlayout.mp h1)
  · simp only [Bool.false_eq_true, false_iff, not_not]
    exact Or.inr (Or.inl (hst.mp h2))
  · simp only [Bool.false_eq_true, false_iff, not_not]
    exact Or.inr (Or.inr (Or.inl (hsn.mp h3)))
  · simp only [Bool.false_eq_true, false_iff, not_not]
    exact Or.inr (Or.inr (Or.inr (hcontent.mp h4)))
  · simp only [true_iff]
    rintro (h | h | h | h)
    · exact h1 (hlayout.mpr h)
    · exact h2 (hst.mpr h)
    · exact h3 (hsn.mpr h)
    · exact h4 (hcontent.mpr h)

/-- C4.  `filter_playable_cards` keeps a record iff none of the four
exclusion rules matches (with absent tag fields failing open); in particular
`layout="token"` always excludes, empty `oracle_text` and `type_line`
together always exclude, and a record whose only populated field is a
non-empty `type_line` is retained. -/
theorem filter_playable_cards_spec :
    (∀ (cards : List Card) (c : Card),
      c ∈ filter_playable_cards cards ↔
        c ∈ cards ∧
          ¬(layoutExcluded c ∨ setTypeExcluded c ∨ setNameExcluded c ∨ noContentExcluded c))
    ∧ (∀ c : Card, c.layout = some "token" → playable_keep c = false)
    ∧ (∀ c : Card, c.oracle_text = some "" → c.type_line = some "" → playable_keep c = false)
    ∧ (∀ s : String, s ≠ "" → playable_keep { type_line := some s } = true) := by
  refine ⟨?_, ?_, ?_, ?_⟩
  · intro cards c
    rw [filter_playable_cards, List.mem_filter, playable_keep_iff]
  · intro c h
    have : ¬playable_keep c = true := by
      rw [playable_keep_iff]
      intro hn
      exact hn (Or.inl ⟨"token", h, by decide⟩)
    simpa using this
  · intro c ho ht
    have : ¬playable_keep c = true := by
      rw [playable_keep_iff]
      intro hn
      exact hn (Or.inr (Or.inr (Or.inr ⟨Or.inr ho, Or.inr ht⟩)))
    simpa using this
  · intro s hs
    rw [playable_keep_iff]
    rintro (⟨t, h, _⟩ | h | ⟨t, _, _, h, _⟩ | ⟨_, h⟩)
    · cases h
    · cases h
    · cases h
    · rcases h with h | h
      · cases h
      · exact hs (by simpa using h)

/-- Witness for C4: a card whose only populated field is a non-empty type
line is kept. -/
theorem filter_playable_cards_spec_witness :
    playable_keep { type_line := some "Creature" } = true :=
  filter_playable_cards_spec.2.2.2 "Creature" (by decide)

/-! ## C7: double-faced-card text merge -/

/-- `merge_dfc_one` either returns its input or only replaces the text. -/
lemma merge_dfc_one_frame (card : Card) :
    merge_dfc_one card = card ∨
      ∃ t, merge_dfc_one card = { card with oracle_text := some t } := by
  rw [merge_dfc_one]
  rcases card.card_faces with _ | faces
  · exact Or.inl rfl
  · dsimp only
    split_ifs with h1 h2
    · exact Or.inl rfl
    · exact Or.inr ⟨_, rfl⟩
    · exact Or.inl rfl

/-- C7.  `merge_dfc_oracle_text` maps each card independently; a card whose
faces provide at least one non-empty text gets its top-level `oracle_text`
replaced by the non-empty face texts in face order joined with " // " and no
other field changes, while a card without faces, or whose faces all lack
non-empty text, is returned unchanged. -/
theorem merge_dfc_oracle_text_spec :
    (∀ cards : List Card, merge_dfc_oracle_text cards = cards.map merge_dfc_one)
    ∧ (∀ faces : List Face,
        faceTexts faces ≠ [] ↔ ∃ f ∈ faces, ∃ t, f.oracle_text = some t ∧ t ≠ "")
    ∧ (∀ (card : Card) (faces : List Face), card.card_faces = some faces →
        faceTexts faces ≠ [] →
        merge_dfc_one card = { card with oracle_text := some (joinSep " // " (faceTexts faces)) })
    ∧ (∀ (card : Card) (faces : List Face), card.card_faces = some faces →
        faceTexts faces = [] → merge_dfc_one card = card)
    ∧ (∀ card : Card, card.card_faces = none → merge_dfc_one card = card)
    ∧ (∀ card : Card,
        (merge_dfc_one card).oracle_id = card.oracle_id ∧
        (merge_dfc_one card).name = card.name ∧
        (merge_dfc_one card).layout = card.layout ∧
        (merge_dfc_one card).set_type = card.set_type ∧
        (merge_dfc_one card).set_name = card.set_name ∧
        (merge_dfc_one card).type_line = card.type_line ∧
        (merge_dfc_one card).card_faces = card.card_faces ∧
        (merge_dfc_one card).colors = card.colors ∧
        (merge_dfc_one card).color_identity = card.color_identity) := by
  have hpoint : ∀ face : Face,
      ((match face.oracle_text with
        | some t => if t = "" then none else some t
        | none => none) : Option String) ≠ none ↔
        ∃ t, face.oracle_text = some t ∧ t ≠ "" := by
    intro face
    cases h : face.oracle_text with
    | none => simp
    | some t =>
      by_cases ht : t = "" <;> simp [ht]
  refine ⟨fun _ => rfl, ?_, ?_, ?_, fun card h => by simp [merge_dfc_one, h], ?_⟩
  · intro faces
    rw [Ne, faceTexts, List.filterMap_eq_nil_iff]
    push_neg
    constructor
    · rintro ⟨f, hf, hne⟩
      exact ⟨f, hf, (hpoint f).mp hne⟩
    · rintro ⟨f, hf, ht⟩
      exact ⟨f, hf, (hpoint f).mpr ht⟩
  · intro card faces hfaces hne
    cases faces with
    | nil => exact absurd rfl hne
    | cons f fs =>
      rw [merge_dfc_one, hfaces]
      simp only [List.length_cons, Nat.succ_pos, if_true]
      rw [if_neg (by simpa [List.isEmpty_iff] using hne)]
  · intro card faces hfaces hnil
    simp [merge_dfc_one, hfaces, hnil]
  · intro card
    rcases merge_dfc_one_frame card with h | ⟨t, h⟩ <;> rw [h] <;>
      exact ⟨rfl, rfl, rfl, rfl, rfl, rfl, rfl, rfl, rfl⟩

/-- Witness for C7: a two-faced card (one face text empty) gets the non-empty
texts joined. -/
theorem merge_dfc_oracle_text_spec_witness :
    merge_dfc_one
        { name := some "A // B",
          card_faces := some [{ oracle_text := some "Front text" },
                              { oracle_text := some "" },
                              { oracle_text := some "Back text" }] } =
      { name := some "A // B",
        card_faces := some [{ oracle_text := some "Front text" },
                            { oracle_text := some "" },
                            { oracle_text := some "Back text" }],
        oracle_text :=
          some (joinSep " // "
            (faceTexts [{ oracle_text := some "Front text" },
                        { oracle_text := some "" },
                        { oracle_text := some "Back text" }])) } :=
  merge_dfc_oracle_text_spec.2.2.1 _ _ rfl (by decide)

/-! ## C6: combo normalization keeps exactly recognizable entries -/

/-- C6.  In `parse_spellbook_combos`, a `uses` entry is kept iff its nested
card yields at least one of `name`, `oracleId`, `typeLine`; a `produces`
entry is kept iff its nested feature has a `name`; entries yielding nothing
are dropped silently and no kept entry is an empty placeholder. -/
theorem parse_spellbook_combos_spec :
    (∀ variants : List RawCombo, parse_spellbook_combos variants = variants.map normalize_combo)
    ∧ (∀ (c : RawCombo) (us : List RawUseItem), c.uses = some us →
        (normalize_combo c).uses = some (us.filterMap projCard)
        ∧ (∀ item ∈ us, (projCard item).isSome ↔
            ∃ rc, item.card = some rc ∧
              (rc.name.isSome ∨ rc.oracleId.isSome ∨ rc.typeLine.isSome))
        ∧ (∀ ci : CardInfo, ci ∈ us.filterMap projCard ↔ ∃ item ∈ us, projCard item = some ci)
        ∧ (∀ ci ∈ us.filterMap projCard,
            ci.name.isSome ∨ ci.oracleId.isSome ∨ ci.typeLine.isSome))
    ∧ (∀ c : RawCombo, c.uses = none → (normalize_combo c).uses = none)
    ∧ (∀ (c : RawCombo) (ps : List RawProduceItem), c.produces = some ps →
        (normalize_combo c).produces = some (ps.filterMap projFeature)
        ∧ (∀ item ∈ ps, (projFeature item).isSome ↔
            ∃ rf, item.feature = some rf ∧ rf.name.isSome)
        ∧ (∀ f : Feature, f ∈ ps.filterMap projFeature ↔ ∃ item ∈ ps, projFeature item = some f))
    ∧ (∀ c : RawCombo, c.produces = none → (normalize_combo c).produces = none) := by
  refine ⟨fun _ => rfl, ?_, fun c h => by simp [normalize_combo, h], ?_,
    fun c h => by simp [normalize_combo, h]⟩
  · intro c us h
    refine ⟨by simp [normalize_combo, h], ?_, fun ci => List.mem_filterMap, ?_⟩
    · intro item _
      cases hc : item.card with
      | none => simp [projCard, hc]
      | some rc =>
        rw [projCard, hc]
        dsimp only
        by_cases hrec : (rc.name.isSome || rc.oracleId.isSome || rc.typeLine.isSome) = true
        · simp only [hrec, if_true, Option.isSome_some, true_iff]
          exact ⟨rc, rfl, by simpa [Bool.or_eq_true, or_assoc] using hrec⟩
        · simp only [hrec, if_false, Option.isSome_none, Bool.false_eq_true, false_iff]
          rintro ⟨rc', hrc', hdisj⟩
          cases hrc'
          exact hrec (by simpa [Bool.or_eq_true, or_assoc] using hdisj)
    · intro ci hci
      obtain ⟨item, _, hitem⟩ := List.mem_filterMap.mp hci
      rw [projCard] at hitem
      cases hc : item.card with
      | none => rw [hc] at hitem; cases hitem
      | some rc =>
        rw [hc] at hitem
        dsimp only at hitem
        by_cases hrec : (rc.name.isSome || rc.oracleId.isSome || rc.typeLine.isSome) = true
        · rw [if_pos hrec] at hitem
          cases hitem
          simpa [Bool.or_eq_true, or_assoc] using hrec
        · rw [if_neg hrec] at hitem
          cases hitem
  · intro c ps h
    refine ⟨by simp [normalize_combo, h], ?_, fun f => List.mem_filterMap⟩
    intro item _
    cases hf : item.feature with
    | none => simp [projFeature, hf]
    | some rf =>
      cases hn : rf.name with
      | none => simp [projFeature, hf, hn]
      | some n => simp [projFeature, hf, hn]

/-- Witness for C6 at a concrete raw combo: a card entry with one recognized
field is kept, entries with an empty card object or no card object are
dropped. -/
theorem parse_spellbook_combos_spec_witness :
    (normalize_combo
        { id := some "combo-1",
          uses := some [{ card := some { name := some "Card A" } },
                        { card := some {} },
                        { card := none }] }).uses =
      some ([({ card := some { name := some "Card A" } } : RawUseItem),
             { card := some {} }, { card := none }].filterMap projCard) :=
  (parse_spellbook_combos_spec.2.1 _ _ rfl).1

/-! ## C5: dedupe keeps exactly first occurrences -/

/-- The seen-set dedupe of the source computes the first-occurrence filter. -/
lemma dedupe_first_eq_firstOccAux :
    ∀ (ts : List TrimmedCard) (seen : List (Option String)) (prev : List TrimmedCard),
      (∀ k : Option String, k ∈ seen ↔ prev.any (fun p => p.oracle_id == k) = true) →
      dedupe_first seen ts = firstOccAux prev ts := by
  intro ts
  induction ts with
  | nil => intro seen prev _; rfl
  | cons t rest ih =>
    intro seen prev hinv
    by_cases hmem : t.oracle_id ∈ seen
    · rw [dedupe_first, if_pos hmem, firstOccAux,
        if_pos ((hinv t.oracle_id).mp hmem)]
      simp only [List.nil_append]
      refine ih seen (prev ++ [t]) fun k => ?_
      rw [hinv k]
      simp only [List.any_append, List.any_cons, List.any_nil, Bool.or_false,
        Bool.or_eq_true]
      constructor
      · exact Or.inl
      · rintro (h | h)
        · exact h
        · have : t.oracle_id = k := by simpa using h
          rw [← this]
          exact (hinv t.oracle_id).mp hmem
    · rw [dedupe_first, if_neg hmem, firstOccAux,
        if_neg (fun h => hmem ((hinv t.oracle_id).mpr h))]
      simp only [List.singleton_append, List.cons.injEq, true_and]
      refine ih (t.oracle_id :: seen) (prev ++ [t]) fun k => ?_
      simp only [List.mem_cons, hinv k, List.any_append, List.any_cons,
        List.any_nil, Bool.or_false, Bool.or_eq_true]
      constructor
      · rintro (rfl | h)
        · exact Or.inr (by simp)
        · exact Or.inl h
      · rintro (h | h)
        · exact Or.inr h
        · exact Or.inl (eq_of_beq h).symm

/-- Dedupe never lengthens the list. -/
lemma dedupe_first_length_le :
    ∀ (ts : List TrimmedCard) (seen : List (Option String)),
      (dedupe_first seen ts).length ≤ ts.length := by
  intro ts
  induction ts with
  | nil => intro seen; exact Nat.le_refl 0
  | cons t rest ih =>
    intro seen
    rw [dedupe_first]
    split_ifs
    · exact Nat.le_succ_of_le (ih seen)
    · simpa using Nat.succ_le_succ (ih (t.oracle_id :: seen))

/-- After dedupe each key occurs at most once (and not at all if already
seen). -/
lemma dedupe_first_key_once (k : Option String) :
    ∀ (ts : List TrimmedCard) (seen : List (Option String)),
      ((dedupe_first seen ts).filter (fun t => t.oracle_id == k)).length ≤ 1 ∧
      (k ∈ seen → ((dedupe_first seen ts).filter (fun t => t.oracle_id == k)).length = 0) := by
  intro ts
  induction ts with
  | nil => intro seen; exact ⟨Nat.zero_le 1, fun _ => rfl⟩
  | cons t rest ih =>
    intro seen
    by_cases hmem : t.oracle_id ∈ seen
    · rw [dedupe_first, if_pos hmem]
      exact ih seen
    · rw [dedupe_first, if_neg hmem]
      by_cases hk : t.oracle_id = k
      · constructor
        · rw [List.filter_cons, if_pos (by simpa using hk)]
          have h0 := (ih (t.oracle_id :: seen)).2 (by simp [hk])
          simp [h0]
        · intro hks
          exact absurd (hk ▸ hks) hmem
      · rw [List.filter_cons, if_neg (by simpa using hk)]
        refine ⟨(ih (t.oracle_id :: seen)).1, fun hks => ?_⟩
        exact (ih (t.oracle_id :: seen)).2 (List.mem_cons_of_mem _ hks)

/-- The price merge never changes a row's identity key. -/
lemma mergePriceFields_oracle_id (idx : List (String × PriceEntry)) (t : TrimmedCard) :
    (mergePriceFields idx t).oracle_id = t.oracle_id := by
  rw [mergePriceFields]
  rcases h : t.oracle_id with _ | oid
  · exact h
  · dsimp only
    split_ifs
    · exact h
    · cases List.lookup oid idx
      · exact h
      · rfl

/-- C5.  `trim_and_dedupe_cards` never grows the list; when the identity-key
column exists, the output is exactly the first occurrence per key (in input
order, modulo the identity-preserving price-field merge) and every key
occurs at most once; otherwise the trimmed rows pass through unchanged. -/
theorem trim_and_dedupe_cards_spec (cards : List Card)
    (priceIndex : Option (List (String × PriceEntry))) :
    (trim_and_dedupe_cards cards priceIndex).length ≤ cards.length
    ∧ ((cards.map trim_card).any (fun t => t.oracle_id.isSome) = true →
        ∃ f : TrimmedCard → TrimmedCard, (∀ t, (f t).oracle_id = t.oracle_id) ∧
          trim_and_dedupe_cards cards priceIndex =
            (firstOccAux [] (cards.map trim_card)).map f)
    ∧ ((cards.map trim_card).any (fun t => t.oracle_id.isSome) = false →
        trim_and_dedupe_cards cards priceIndex = cards.map trim_card)
    ∧ ((cards.map trim_card).any (fun t => t.oracle_id.isSome) = true →
        ∀ k : Option String,
          ((trim_and_dedupe_cards cards priceIndex).filter
            (fun t => t.oracle_id == k)).length ≤ 1) := by
  have hts : (cards.map trim_card).length = cards.length := List.length_map ..
  have hfo : dedupe_first [] (cards.map trim_card) = firstOccAux [] (cards.map trim_card) :=
    dedupe_first_eq_firstOccAux _ [] [] (by simp)
  have hval : ∃ b : Bool,
      ((cards.map trim_card).any fun t => t.oracle_id.isSome) = b := ⟨_, rfl⟩
  obtain ⟨b, hb⟩ := hval
  have hmain : trim_and_dedupe_cards cards priceIndex =
      (if b then dedupe_first [] (cards.map trim_card) else cards.map trim_card)
      ∨ (b = true ∧ ∃ idx, trim_and_dedupe_cards cards priceIndex =
          (dedupe_first [] (cards.map trim_card)).map (mergePriceFields idx)) := by
    rw [trim_and_dedupe_cards.eq_def]
    dsimp only
    rw [hb]
    rcases priceIndex with _ | idx
    · exact Or.inl rfl
    · dsimp only
      by_cases hcond : ¬idx.isEmpty = true ∧ b = true
      · rw [if_pos hcond]
        exact Or.inr ⟨hcond.2, idx, by rw [hcond.2]; simp⟩
      · rw [if_neg hcond]
        exact Or.inl rfl
  have hfilter_map_len : ∀ (idx : List (String × PriceEntry)) (l : List TrimmedCard)
      (k : Option String),
      ((l.map (mergePriceFields idx)).filter (fun t => t.oracle_id == k)).length =
        (l.filter (fun t => t.oracle_id == k)).length := by
    intro idx l k
    rw [List.filter_map]
    rw [List.length_map]
    congr 1
    apply List.filter_congr
    intro t _
    simp [Function.comp, mergePriceFields_oracle_id]
  refine ⟨?_, ?_, ?_, ?_⟩
  · rcases hmain with h | ⟨hbt, idx, h⟩
    · rw [h]
      split_ifs
      · exact le_trans (dedupe_first_length_le _ _) (le_of_eq hts)
      · exact le_of_eq hts
    · rw [h, List.length_map]
      exact le_trans (dedupe_first_length_le _ _) (le_of_eq hts)
  · intro hcol
    have hbt : b = true := by rw [← hb, hcol]
    rcases hmain with h | ⟨_, idx, h⟩
    · refine ⟨id, fun _ => rfl, ?_⟩
      rw [h, hbt, if_pos rfl, hfo, List.map_id]
    · exact ⟨mergePriceFields idx, mergePriceFields_oracle_id idx, by rw [h, hfo]⟩
  · intro hcol
    have hbf : b = false := by rw [← hb, hcol]
    rcases hmain with h | ⟨hbt, _, _⟩
    · rw [h, hbf]
      simp
    · rw [hbt] at hbf
      cases hbf
  · intro hcol k
    have hbt : b = true := by rw [← hb, hcol]
    rcases hmain with h | ⟨_, idx, h⟩
    · rw [h, hbt, if_pos rfl]
      exact (dedupe_first_key_once k _ []).1
    · rw [h, hfilter_map_len]
      exact (dedupe_first_key_once k _ []).1

/-- Witness for C5: two cards sharing one oracle id dedupe to at most one row
with that key. -/
theorem trim_and_dedupe_cards_spec_witness :
    ((trim_and_dedupe_cards
        [{ oracle_id := some "a", name := some "X" },
         { oracle_id := some "a", name := some "Y" }] none).filter
      (fun t => t.oracle_id == some "a")).length ≤ 1 :=
  (trim_and_dedupe_cards_spec
    [{ oracle_id := some "a", name := some "X" },
     { oracle_id := some "a", name := some "Y" }] none).2.2.2 (by decide) (some "a")

/-! ## C10: alphabetical bucket split -/

/-- Insertion keeps the same elements. -/
lemma insertByName_perm (c : TrimmedCard) :
    ∀ l : List TrimmedCard, (insertByName c l).Perm (c :: l) := by
  intro l
  induction l with
  | nil => exact List.Perm.refl _
  | cons x xs ih =>
    rw [insertByName]
    split_ifs
    · exact List.Perm.refl _
    · exact (ih.cons x).trans (List.Perm.swap c x xs)

/-- Sorting by name is a permutation. -/
lemma sortCardsByName_perm : ∀ l : List TrimmedCard, (sortCardsByName l).Perm l := by
  intro l
  induction l with
  | nil => exact List.Perm.refl _
  | cons x xs ih => exact (insertByName_perm x _).trans (ih.cons x)

/-- Membership is unchanged by the name sort. -/
lemma mem_sortCardsByName (x : TrimmedCard) (l : List TrimmedCard) :
    x ∈ sortCardsByName l ↔ x ∈ l :=
  (sortCardsByName_perm l).mem_iff

/-- A true bucket mask forces the lowercased first letter into the range. -/
lemma firstLowerInRange_letter (x : TrimmedCard) (s e : Char) (n : String)
    (ch : Char) (rest : List Char)
    (hn : x.name = some n) (hdata : n.data = ch :: rest)
    (has : 'a' ≤ s) (hez : e ≤ 'z')
    (hmask : firstLowerInRange x s e = true) :
    'a' ≤ pyLowerChar ch ∧ pyLowerChar ch ≤ 'z' := by
  rw [firstLowerInRange, hn] at hmask
  dsimp only at hmask
  rw [hdata] at hmask
  simp only [Bool.and_eq_true, decide_eq_true_eq] at hmask
  exact ⟨le_trans has hmask.1, le_trans hmask.2 hez⟩

/-- C10.  In the splitting branch of `write_output_files`, each produced file
is a non-empty range bucket containing exactly the cards whose lowercased
first letter lies in that range; every card matching a range appears in that
range's file; a card whose name starts with a character whose lowercase
stays outside `a`–`z` — every digit and non-letter character does — appears
in no output file, so the three buckets need not cover the input; and a name
beginning with U+0130 'İ' (Unicode-lowercased to 'i') does satisfy the
`g`–`n` mask, as in the program. -/
theorem write_split_files_spec (cards : List TrimmedCard) :
    (∀ p ∈ write_split_files cards,
      ∃ r ∈ splitRanges, p.1 = r.2.2 ∧
        p.2 = (sortCardsByName cards).filter (fun c => firstLowerInRange c r.1 r.2.1) ∧
        p.2 ≠ [] ∧
        (∀ x, x ∈ p.2 ↔ x ∈ cards ∧ firstLowerInRange x r.1 r.2.1 = true))
    ∧ (∀ r ∈ splitRanges, ∀ x ∈ cards, firstLowerInRange x r.1 r.2.1 = true →
        ∃ sub, (r.2.2, sub) ∈ write_split_files cards ∧ x ∈ sub)
    ∧ (∀ x ∈ cards, ∀ (n : String) (ch : Char) (rest : List Char),
        x.name = some n → n.data = ch :: rest →
        (pyLowerChar ch < 'a' ∨ 'z' < pyLowerChar ch) →
        ∀ p ∈ write_split_files cards, x ∉ p.2)
    ∧ firstLowerInRange { name := some "İstanbul" } 'g' 'n' = true := by
  have hbucket : ∀ p, p ∈ write_split_files cards ↔
      ∃ r ∈ splitRanges,
        (let subset := (sortCardsByName cards).filter
          (fun c => firstLowerInRange c r.1 r.2.1)
         if 0 < subset.length then some (r.2.2, subset) else none) = some p := by
    intro p
    rw [write_split_files]
    exact List.mem_filterMap
  have hranges_bounds : ∀ r ∈ splitRanges, 'a' ≤ r.1 ∧ r.2.1 ≤ 'z' := by
    intro r hr
    fin_cases hr <;> exact ⟨by decide, by decide⟩
  have hfirst : ∀ p ∈ write_split_files cards,
      ∃ r ∈ splitRanges, p.1 = r.2.2 ∧
        p.2 = (sortCardsByName cards).filter (fun c => firstLowerInRange c r.1 r.2.1) ∧
        p.2 ≠ [] ∧
        (∀ x, x ∈ p.2 ↔ x ∈ cards ∧ firstLowerInRange x r.1 r.2.1 = true) := by
    intro p hp
    obtain ⟨r, hr, hval⟩ := (hbucket p).mp hp
    dsimp only at hval
    by_cases hlen : 0 <
        ((sortCardsByName cards).filter (fun c => firstLowerInRange c r.1 r.2.1)).length
    · rw [if_pos hlen] at hval
      obtain rfl : (r.2.2, (sortCardsByName cards).filter
          (fun c => firstLowerInRange c r.1 r.2.1)) = p := by
        injection hval
      refine ⟨r, hr, rfl, rfl, ?_, ?_⟩
      · intro hnil
        dsimp only at hnil
        rw [hnil] at hlen
        exact absurd hlen (by simp)
      · intro x
        rw [List.mem_filter, mem_sortCardsByName]
    · rw [if_neg hlen] at hval
      cases hval
  refine ⟨hfirst, ?_, ?_, by decide⟩
  · intro r hr x hx hmask
    have hxsub : x ∈ (sortCardsByName cards).filter
        (fun c => firstLowerInRange c r.1 r.2.1) :=
      List.mem_filter.mpr ⟨(mem_sortCardsByName x cards).mpr hx, hmask⟩
    have hlen : 0 < ((sortCardsByName cards).filter
        (fun c => firstLowerInRange c r.1 r.2.1)).length :=
      List.length_pos.mpr (List.ne_nil_of_mem hxsub)
    refine ⟨_, ?_, hxsub⟩
    rw [hbucket]
    exact ⟨r, hr, by dsimp only; rw [if_pos hlen]⟩
  · intro x _ n ch rest hn hdata hout p hp hxin
    obtain ⟨r, hr, _, _, _, hiff⟩ := hfirst p hp
    have hmask := ((hiff x).mp hxin).2
    have hb := hranges_bounds r hr
    have hcl := firstLowerInRange_letter x r.1 r.2.1 n ch rest hn hdata hb.1 hb.2 hmask
    rcases hout with hlt | hgt
    · exact absurd hcl.1 (not_le.mpr hlt)
    · exact absurd hcl.2 (not_le.mpr hgt)

/-- Witness for C10: a card named "Alpha" lands in the a–f bucket. -/
theorem write_split_files_spec_witness :
    ∃ sub, ("scryfall_oracle_trimmed_a-f.csv.gz", sub) ∈
        write_split_files [{ name := some "Alpha" }] ∧
      ({ name := some "Alpha" } : TrimmedCard) ∈ sub :=
  (write_split_files_spec [{ name := some "Alpha" }]).2.1
    ('a', 'f', "scryfall_oracle_trimmed_a-f.csv.gz") (by decide)
    { name := some "Alpha" } (by decide) (by decide)

/-! ## C8: invalid prices are skipped, empty identities omitted -/

/-- Any observation produced by one price key comes from a present, non-empty
string that parses to exactly that value. -/
lemma priceObs_mem (str : Option String) (finish : String) (fv : String × ℚ)
    (h : fv ∈ priceObs str finish) :
    fv.1 = finish ∧ ∃ s, str = some s ∧ s ≠ "" ∧ pyFloat s = some fv.2 := by
  cases str with
  | none => cases h
  | some s =>
    rw [priceObs] at h
    by_cases hs : s = ""
    · rw [if_pos hs] at h
      cases h
    · rw [if_neg hs] at h
      cases hp : pyFloat s with
      | none => rw [hp] at h; cases h
      | some v =>
        rw [hp] at h
        rcases List.mem_singleton.mp h with rfl
        exact ⟨rfl, s, rfl, hs, hp⟩

/-- Appending an observation under a different key does not introduce `oid`. -/
lemma addObs_not_mem (oid k : String) (o : Obs) :
    ∀ groups : List (String × List Obs),
      oid ∉ groups.map Prod.fst → oid ≠ k →
      oid ∉ (addObs groups k o).map Prod.fst := by
  intro groups
  induction groups with
  | nil =>
    intro _ hne
    simp [addObs, hne]
  | cons g rest ih =>
    intro hmem hne
    rw [addObs]
    rcases g with ⟨k', os⟩
    simp only [List.mem_map, not_exists, not_and] at hmem
    split_ifs with hk
    · intro hc
      simp only [List.map_cons, List.mem_cons] at hc
      rcases hc with hc | hc
      · exact hne (hc.trans hk)
      · obtain ⟨q, hq, hqf⟩ := List.mem_map.mp hc
        exact hmem q (List.mem_cons_of_mem _ hq) hqf
    · intro hc
      simp only [List.map_cons, List.mem_cons] at hc
      rcases hc with hc | hc
      · exact hmem (k', os) (List.mem_cons_self (k', os) rest) hc.symm
      · have hrest : oid ∉ rest.map Prod.fst := by
          intro hr
          obtain ⟨q, hq, hqf⟩ := List.mem_map.mp hr
          exact hmem q (List.mem_cons_of_mem _ hq) hqf
        exact absurd hc (fun hcc => (ih hrest hne) (by simpa using hcc))

/-- Folding observations of a key different from `oid` keeps `oid` absent. -/
lemma foldl_addObs_not_mem (oid k : String) (mk : String × ℚ → Obs) :
    ∀ (obsList : List (String × ℚ)) (groups : List (String × List Obs)),
      oid ∉ groups.map Prod.fst → oid ≠ k →
      oid ∉ (obsList.foldl (fun g fv => addObs g k (mk fv)) groups).map Prod.fst := by
  intro obsList
  induction obsList with
  | nil => intro groups h _; exact h
  | cons fv rest ih =>
    intro groups h hne
    exact ih _ (addObs_not_mem oid k (mk fv) groups h hne) hne

/-- If every printing of `oid` yields no valid observation, `oid` never
enters the grouped observations. -/
lemma collectPrices_not_mem (oid : String) :
    ∀ (cards : List PriceCard) (groups : List (String × List Obs)),
      oid ∉ groups.map Prod.fst →
      (∀ card ∈ cards, card.oracle_id = some oid →
        ∀ p, card.prices = some p → _best_price_from_printing p = []) →
      oid ∉ (cards.foldl
        (fun groups card =>
          match card.oracle_id with
          | none => groups
          | some oid' =>
            if oid' = "" then groups
            else
              match card.prices with
              | none => groups
              | some p =>
                (_best_price_from_printing p).foldl
                  (fun g fv =>
                    addObs g oid' ⟨fv.2, fv.1, card.set.getD "", card.collector_number.getD ""⟩)
                  groups)
        groups).map Prod.fst := by
  intro cards
  induction cards with
  | nil => intro groups h _; exact h
  | cons card rest ih =>
    intro groups h hyp
    rw [List.foldl_cons]
    refine ih _ ?_ fun c hc => hyp c (List.mem_cons_of_mem _ hc)
    cases hoid : card.oracle_id with
    | none => exact h
    | some oid' =>
      dsimp only
      split_ifs with hemp
      · exact h
      · cases hp : card.prices with
        | none => exact h
        | some p =>
          dsimp only
          by_cases heq : oid' = oid
          · rw [hyp card (List.mem_cons_self ..) (heq ▸ hoid) p hp]
            exact h
          · exact foldl_addObs_not_mem oid oid' _ _ groups h (fun hc => heq hc.symm)

/-- Lookup misses every key absent from the grouped keys. -/
lemma lookup_index_none (oid : String) :
    ∀ gs : List (String × List Obs),
      oid ∉ gs.map Prod.fst →
      List.lookup oid (gs.filterMap fun g => (aggregateGroup g.2).map fun e => (g.1, e)) = none := by
  intro gs
  induction gs with
  | nil => intro _; rfl
  | cons g rest ih =>
    intro h
    simp only [List.map_cons, List.mem_cons, not_or] at h
    rw [List.filterMap_cons]
    cases ha : aggregateGroup g.2 with
    | none => exact ih h.2
    | some e =>
      simp only [Option.map_some']
      have hne : (oid == g.1) = false := beq_eq_false_iff_ne.mpr h.1
      simp only [List.lookup, hne]
      exact ih h.2

/-- C8.  A price string that is absent, empty, or unparseable contributes no
observation; every observation carries a value parsed from an actual price
string (never a zero default); and an identity all of whose printings yield
zero valid observations has no entry in the price index at all. -/
theorem price_observations_spec :
    (∀ p : PricesDict, ∀ fv ∈ _best_price_from_printing p,
      (fv.1 = "nonfoil" ∧ ∃ s, p.usd = some s ∧ s ≠ "" ∧ pyFloat s = some fv.2) ∨
      (fv.1 = "foil" ∧ ∃ s, p.usd_foil = some s ∧ s ≠ "" ∧ pyFloat s = some fv.2) ∨
      (fv.1 = "etched" ∧ ∃ s, p.usd_etched = some s ∧ s ≠ "" ∧ pyFloat s = some fv.2))
    ∧ (∀ (str : Option String) (finish : String),
        (str = none ∨ str = some "" ∨ ∃ s, str = some s ∧ pyFloat s = none) →
        priceObs str finish = [])
    ∧ (∀ (cards : List PriceCard) (oid : String),
        (∀ card ∈ cards, card.oracle_id = some oid →
          ∀ p, card.prices = some p → _best_price_from_printing p = []) →
        List.lookup oid (build_oracle_price_index cards) = none) := by
  refine ⟨?_, ?_, ?_⟩
  · intro p fv hfv
    rw [_best_price_from_printing] at hfv
    rcases List.mem_append.mp hfv with hfv | hfv
    · rcases List.mem_append.mp hfv with hfv | hfv
      · exact Or.inl ⟨(priceObs_mem _ _ _ hfv).1, (priceObs_mem _ _ _ hfv).2⟩
      · exact Or.inr (Or.inl ⟨(priceObs_mem _ _ _ hfv).1, (priceObs_mem _ _ _ hfv).2⟩)
    · exact Or.inr (Or.inr ⟨(priceObs_mem _ _ _ hfv).1, (priceObs_mem _ _ _ hfv).2⟩)
  · rintro str finish (rfl | rfl | ⟨s, rfl, hps⟩)
    · rfl
    · rfl
    · rw [priceObs]
      split_ifs with hs
      · rfl
      · rw [hps]
  · intro cards oid hyp
    rw [build_oracle_price_index]
    exact lookup_index_none oid _ (collectPrices_not_mem oid cards [] (by simp) hyp)

/-- Witness for C8: one printing with an unparseable usd string and an empty
foil string yields no index entry for its identity. -/
theorem price_observations_spec_witness :
    List.lookup "o"
      (build_oracle_price_index
        [{ oracle_id := some "o", set := some "x", collector_number := some "1",
           prices := some { usd := some "abc", usd_foil := some "" } }]) = none := by
  refine price_observations_spec.2.2 _ "o" ?_
  intro card hcard hoid p hp
  rcases List.mem_singleton.mp hcard with rfl
  cases hp
  decide

/-! ## C2: price aggregation — sorting lemmas -/

/-- Insertion keeps the same observations. -/
lemma insertObs_perm (o : Obs) : ∀ l, (insertObs o l).Perm (o :: l) := by
  intro l
  induction l with
  | nil => exact List.Perm.refl _
  | cons x xs ih =>
    rw [insertObs]
    split_ifs
    · exact List.Perm.refl _
    · exact (ih.cons x).trans (List.Perm.swap o x xs)

/-- The observation sort is a permutation. -/
lemma sortObs_perm : ∀ l, (sortObs l).Perm l := by
  intro l
  induction l with
  | nil => exact List.Perm.refl _
  | cons x xs ih => exact (insertObs_perm x _).trans (ih.cons x)

/-- Insertion preserves value-sortedness. -/
lemma insertObs_sorted (o : Obs) :
    ∀ l, List.Sorted (fun a b : Obs => a.val ≤ b.val) l →
      List.Sorted (fun a b : Obs => a.val ≤ b.val) (insertObs o l) := by
  intro l
  induction l with
  | nil => intro _; simp [insertObs]
  | cons x xs ih =>
    intro hs
    rcases List.sorted_cons.mp hs with ⟨hx, hxs⟩
    rw [insertObs]
    split_ifs with hle
    · refine List.sorted_cons.mpr ⟨fun b hb => ?_, hs⟩
      rcases List.mem_cons.mp hb with rfl | hb
      · exact hle
      · exact le_trans hle (hx b hb)
    · refine List.sorted_cons.mpr ⟨fun b hb => ?_, ih hxs⟩
      rcases List.mem_cons.mp ((insertObs_perm o xs).mem_iff.mp hb) with rfl | hb'
      · exact le_of_not_le hle
      · exact hx b hb'

/-- The observation sort sorts ascending by value. -/
lemma sortObs_sorted : ∀ l, List.Sorted (fun a b : Obs => a.val ≤ b.val) (sortObs l) := by
  intro l
  induction l with
  | nil => simp [sortObs]
  | cons x xs ih => exact insertObs_sorted x _ ih

/-- Insertion keeps the same rationals. -/
lemma insertQ_perm (q : ℚ) : ∀ l, (insertQ q l).Perm (q :: l) := by
  intro l
  induction l with
  | nil => exact List.Perm.refl _
  | cons x xs ih =>
    rw [insertQ]
    split_ifs
    · exact List.Perm.refl _
    · exact (ih.cons x).trans (List.Perm.swap q x xs)

/-- The rational sort is a permutation. -/
lemma sortQ_perm : ∀ l : List ℚ, (sortQ l).Perm l := by
  intro l
  induction l with
  | nil => exact List.Perm.refl _
  | cons x xs ih => exact (insertQ_perm x _).trans (ih.cons x)

/-- Insertion preserves sortedness of rationals. -/
lemma insertQ_sorted (q : ℚ) :
    ∀ l, List.Sorted (· ≤ ·) l → List.Sorted (· ≤ ·) (insertQ q l) := by
  intro l
  induction l with
  | nil => intro _; simp [insertQ]
  | cons x xs ih =>
    intro hs
    rcases List.sorted_cons.mp hs with ⟨hx, hxs⟩
    rw [insertQ]
    split_ifs with hle
    · refine List.sorted_cons.mpr ⟨fun b hb => ?_, hs⟩
      rcases List.mem_cons.mp hb with rfl | hb
      · exact hle
      · exact le_trans hle (hx b hb)
    · refine List.sorted_cons.mpr ⟨fun b hb => ?_, ih hxs⟩
      rcases List.mem_cons.mp ((insertQ_perm q xs).mem_iff.mp hb) with rfl | hb'
      · exact le_of_not_le hle
      · exact hx b hb'

/-- The rational sort sorts ascending. -/
lemma sortQ_sorted : ∀ l : List ℚ, List.Sorted (· ≤ ·) (sortQ l) := by
  intro l
  induction l with
  | nil => simp [sortQ]
  | cons x xs ih => exact insertQ_sorted x _ ih

/-- Sorting depends only on the multiset of values. -/
lemma sortQ_congr_perm {l₁ l₂ : List ℚ} (h : l₁.Perm l₂) : sortQ l₁ = sortQ l₂ :=
  List.eq_of_perm_of_sorted ((sortQ_perm l₁).trans (h.trans (sortQ_perm l₂).symm))
    (sortQ_sorted l₁) (sortQ_sorted l₂)

/-- `statistics.median` is invariant under permutation of its input. -/
lemma pyMedian_congr {l₁ l₂ : List ℚ} (h : l₁.Perm l₂) : pyMedian l₁ = pyMedian l₂ := by
  rw [pyMedian, pyMedian, sortQ_congr_perm h]

/-- A lower bound on a sorted list bounds its last element from below. -/
lemma le_getLastD_of_forall_le :
    ∀ (l : List ℚ), List.Sorted (· ≤ ·) l → ∀ d, (∀ y ∈ l, d ≤ y) → d ≤ l.getLastD d := by
  intro l
  induction l with
  | nil => intro _ d _; exact le_refl d
  | cons b l' ih =>
    intro hs d hd
    rw [List.getLastD_cons]
    exact le_trans (hd b (List.mem_cons_self b l'))
      (ih (List.sorted_cons.mp hs).2 b (List.sorted_cons.mp hs).1)

/-- In a sorted list every element is at most the last element. -/
lemma le_getLastD_of_sorted :
    ∀ (l : List ℚ), List.Sorted (· ≤ ·) l → ∀ x ∈ l, ∀ d, x ≤ l.getLastD d := by
  intro l
  induction l with
  | nil => intro _ x hx; cases hx
  | cons a l' ih =>
    intro hs x hx d
    rw [List.getLastD_cons]
    rcases List.mem_cons.mp hx with rfl | hx'
    · exact le_getLastD_of_forall_le l' (List.sorted_cons.mp hs).2 x
        (List.sorted_cons.mp hs).1
    · exact ih (List.sorted_cons.mp hs).2 x hx' a

/-! ## C2: price aggregation — formatting and summary lemmas -/

/-- `f"{2.95:.2f}"`. -/
lemma fmt2_295 : fmt2 (2.95 : ℚ) = "2.95" := by
  have hr : round ((2.95 : ℚ) * 100) = (295 : ℤ) := by norm_num [round_eq]
  rw [fmt2, hr]
  decide

/-- `f"{7.50:.2f}"`. -/
lemma fmt2_750 : fmt2 (7.50 : ℚ) = "7.50" := by
  have hr : round ((7.50 : ℚ) * 100) = (750 : ℤ) := by norm_num [round_eq]
  rw [fmt2, hr]
  decide

/-- `f"{89.99:.2f}"`. -/
lemma fmt2_8999 : fmt2 (89.99 : ℚ) = "89.99" := by
  have hr : round ((89.99 : ℚ) * 100) = (8999 : ℤ) := by norm_num [round_eq]
  rw [fmt2, hr]
  decide

/-- `f"{1.00:.2f}"`. -/
lemma fmt2_100 : fmt2 (1.00 : ℚ) = "1.00" := by
  have hr : round ((1.00 : ℚ) * 100) = (100 : ℤ) := by norm_num [round_eq]
  rw [fmt2, hr]
  decide

/-- Value of the per-group aggregation once the sorted order is known. -/
lemma aggregateGroup_eq (os : List Obs) (first : Obs) (rest : List Obs)
    (hsort : sortObs os = first :: rest) :
    aggregateGroup os = some
      { lowest_price_usd := fmt2 first.val
        lowest_price_finish := first.finish
        lowest_price_set := first.set
        lowest_price_collector := first.collector
        median_price_usd := fmt2 (pyMedian ((first :: rest).map Obs.val))
        highest_price_usd := fmt2 (((first :: rest).map Obs.val).getLastD 0)
        price_summary :=
          joinSep " "
            (["$" ++ fmt2 first.val,
              "(cheapest: " ++ asciiUpper first.set ++ " #" ++ first.collector ++ ", " ++
                first.finish ++ ")"] ++
             (if 1 < ((first :: rest).map Obs.val).length then
               ["Range $" ++ fmt2 first.val ++ "–$" ++
                  fmt2 (((first :: rest).map Obs.val).getLastD 0) ++ ".",
                "median $" ++ fmt2 (pyMedian ((first :: rest).map Obs.val)) ++ "."]
             else [])) } := by
  rw [aggregateGroup, hsort]

/-- A four-part summary contains "Range". -/
lemma summary_contains_range (p1 p2 a b c : String) :
    strContainsSub (joinSep " " [p1, p2, "Range $" ++ a ++ "–$" ++ b ++ ".",
      "median $" ++ c ++ "."]) "Range" = true := by
  apply strContainsSub_of_parts (p1 ++ " " ++ p2 ++ " ")
    (" $" ++ a ++ "–$" ++ b ++ "." ++ " " ++ ("median $" ++ c ++ "."))
  apply String.ext
  have hsplit : ("Range $" : String).data =
      ("Range" : String).data ++ (" $" : String).data := rfl
  simp [joinSep, String.data_append, hsplit]

/-- A four-part summary contains "median". -/
lemma summary_contains_median (p1 p2 a b c : String) :
    strContainsSub (joinSep " " [p1, p2, "Range $" ++ a ++ "–$" ++ b ++ ".",
      "median $" ++ c ++ "."]) "median" = true := by
  apply strContainsSub_of_parts
    (p1 ++ " " ++ p2 ++ " " ++ ("Range $" ++ a ++ "–$" ++ b ++ ".") ++ " ")
    (" $" ++ c ++ ".")
  apply String.ext
  have hsplit : ("median $" : String).data =
      ("median" : String).data ++ (" $" : String).data := rfl
  simp [joinSep, String.data_append, hsplit]

/-- The example group sorts ascending by value. -/
lemma sortObs_example : sortObs exampleObs =
    [⟨2.95, "nonfoil", "cmr", "684"⟩,
     ⟨7.50, "nonfoil", "lea", "1"⟩,
     ⟨89.99, "nonfoil", "m21", "100"⟩] := by
  norm_num [exampleObs, sortObs, insertObs]

/-- C2 (amended).  Within each identity group, `build_oracle_price_index`
sorts the observations ascending by value; the entry reports lowest = the
first sorted observation (with its set/collector/finish provenance),
highest = the last value, median = the statistical median of all observation
values; on the claim's concrete quotes the entry is 2.95 / 7.50 / 89.99 with
the stated summary; the summary gains the "Range …"/"median …" clauses
exactly when there are two or more observations — so it contains both
substrings whenever the group has at least two, while for a single
observation it is exactly the two-part lowest/provenance string (which can
still contain those substrings only via the quote's own fields). -/
theorem build_oracle_price_index_spec :
    (∀ cards : List PriceCard,
      build_oracle_price_index cards =
        (collectPrices cards).filterMap fun g => (aggregateGroup g.2).map fun e => (g.1, e))
    ∧ (∀ (os : List Obs) (first : Obs) (rest : List Obs),
        sortObs os = first :: rest →
        List.Sorted (fun a b : Obs => a.val ≤ b.val) (first :: rest)
        ∧ (first :: rest).Perm os
        ∧ (∀ o ∈ os, first.val ≤ o.val ∧ o.val ≤ ((first :: rest).map Obs.val).getLastD 0)
        ∧ ∃ e, aggregateGroup os = some e
            ∧ e.lowest_price_usd = fmt2 first.val
            ∧ e.lowest_price_finish = first.finish
            ∧ e.lowest_price_set = first.set
            ∧ e.lowest_price_collector = first.collector
            ∧ e.median_price_usd = fmt2 (pyMedian (os.map Obs.val))
            ∧ e.highest_price_usd = fmt2 (((first :: rest).map Obs.val).getLastD 0)
            ∧ (2 ≤ os.length →
                strContainsSub e.price_summary "Range" = true ∧
                strContainsSub e.price_summary "median" = true)
            ∧ (os.length = 1 →
                e.price_summary = "$" ++ fmt2 first.val ++ " (cheapest: " ++
                  asciiUpper first.set ++ " #" ++ first.collector ++ ", " ++
                  first.finish ++ ")"))
    ∧ (aggregateGroup exampleObs = some
        { lowest_price_usd := "2.95", lowest_price_finish := "nonfoil",
          lowest_price_set := "cmr", lowest_price_collector := "684",
          median_price_usd := "7.50", highest_price_usd := "89.99",
          price_summary := "$2.95 (cheapest: CMR #684, nonfoil) Range $2.95–$89.99. median $7.50." }
      ∧ strContainsSub
          "$2.95 (cheapest: CMR #684, nonfoil) Range $2.95–$89.99. median $7.50."
          "CMR #684" = true
      ∧ strContainsSub
          "$2.95 (cheapest: CMR #684, nonfoil) Range $2.95–$89.99. median $7.50."
          "nonfoil" = true) := by
  refine ⟨fun _ => rfl, ?_, ?_⟩
  · intro os first rest hsort
    have hsorted : List.Sorted (fun a b : Obs => a.val ≤ b.val) (first :: rest) :=
      hsort ▸ sortObs_sorted os
    have hperm : (first :: rest).Perm os := hsort ▸ sortObs_perm os
    refine ⟨hsorted, hperm, ?_, ?_⟩
    · intro o ho
      have hmem : o ∈ first :: rest := hperm.mem_iff.mpr ho
      constructor
      · rcases List.mem_cons.mp hmem with rfl | hm
        · exact le_refl _
        · exact List.rel_of_sorted_cons hsorted o hm
      · have hvs : List.Sorted (· ≤ ·) ((first :: rest).map Obs.val) :=
          List.Pairwise.map Obs.val (fun a b h => h) hsorted
        exact le_getLastD_of_sorted _ hvs o.val (List.mem_map.mpr ⟨o, hmem, rfl⟩) 0
    · refine ⟨_, aggregateGroup_eq os first rest hsort, rfl, rfl, rfl, rfl,
        congrArg fmt2 (pyMedian_congr (hperm.map Obs.val)), rfl, ?_, ?_⟩
      · intro h2
        have hlen : 1 < ((first :: rest).map Obs.val).length := by
          rw [List.length_map, hperm.length_eq]
          omega
        dsimp only
        rw [if_pos hlen]
        exact ⟨summary_contains_range _ _ _ _ _, summary_contains_median _ _ _ _ _⟩
      · intro h1
        have hrest : rest = [] := by
          have hlen1 : (first :: rest).length = 1 := by rw [hperm.length_eq, h1]
          simpa using hlen1
        subst hrest
        dsimp only
        rw [if_neg (by simp)]
        apply String.ext
        have hsp : (" (cheapest: " : String).data =
            (" " : String).data ++ ("(cheapest: " : String).data := rfl
        simp [joinSep, String.data_append, hsp]
  · have hmed : pyMedian [(2.95 : ℚ), 7.50, 89.99] = 7.50 := by
      norm_num [pyMedian, sortQ, insertQ]
    refine ⟨?_, by decide, by decide⟩
    rw [aggregateGroup_eq exampleObs _ _ sortObs_example]
    simp only [List.map_cons, List.map_nil, List.getLastD_cons, List.getLastD_nil]
    rw [hmed, fmt2_295, fmt2_750, fmt2_8999]
    decide

/-- Counterexample to C2 as stated: a single-quote group whose collector
number is "Range median" yields a summary containing both "Range" and
"median", so "contains both iff two or more observations" is false. -/
theorem build_oracle_price_index_counterexample :
    advObs.length = 1
    ∧ aggregateGroup advObs = some
        { lowest_price_usd := "1.00", lowest_price_finish := "nonfoil",
          lowest_price_set := "x", lowest_price_collector := "Range median",
          median_price_usd := "1.00", highest_price_usd := "1.00",
          price_summary := "$1.00 (cheapest: X #Range median, nonfoil)" }
    ∧ strContainsSub "$1.00 (cheapest: X #Range median, nonfoil)" "Range" = true
    ∧ strContainsSub "$1.00 (cheapest: X #Range median, nonfoil)" "median" = true := by
  refine ⟨rfl, ?_, by decide, by decide⟩
  have hmed : pyMedian [(1.00 : ℚ)] = 1.00 := by
    norm_num [pyMedian, sortQ, insertQ]
  rw [aggregateGroup_eq advObs ⟨1.00, "nonfoil", "x", "Range median"⟩ [] rfl]
  simp only [List.map_cons, List.map_nil, List.getLastD_cons, List.getLastD_nil]
  rw [hmed, fmt2_100]
  decide

/-- Witness for C2 at the concrete example group. -/
theorem build_oracle_price_index_spec_witness :
    List.Sorted (fun a b : Obs => a.val ≤ b.val)
      [⟨2.95, "nonfoil", "cmr", "684"⟩,
       ⟨7.50, "nonfoil", "lea", "1"⟩,
       ⟨89.99, "nonfoil", "m21", "100"⟩] :=
  (build_oracle_price_index_spec.2.1 exampleObs _ _ sortObs_example).1

/-! ## C1: size-bounded writer -/

/-- Extending the name list by one file. -/
lemma fileNames_succ (ext : String) (n : Nat) :
    fileNames ext (n + 1) = fileNames ext n ++ [batchName ext (n + 1)] := by
  rw [fileNames, List.range_succ, List.map_append, fileNames]
  rfl

/-- One writer step preserves the invariant and appends exactly the new unit
to the written-plus-pending stream. -/
lemma wStep_inv {tok bl : String → Nat} {maxT maxB : Nat} {ext : String} {st : WState}
    (h : WInv tok bl maxT maxB ext st) (u : String) :
    WInv tok bl maxT maxB ext (wStep tok bl maxT maxB ext st u) ∧
    ((wStep tok bl maxT maxB ext st u).written.map Prod.snd).flatten ++
        (wStep tok bl maxT maxB ext st u).lines =
      (st.written.map Prod.snd).flatten ++ st.lines ++ [u] := by
  rw [wStep]
  split_ifs with hcond
  · rcases hcond with ⟨hne, _⟩
    refine ⟨⟨rfl, rfl, ?_, ?_, ?_, ?_, ?_⟩, ?_⟩
    · intro h2
      exact absurd h2 (by simp)
    · intro p hp
      rcases List.mem_append.mp hp with hp | hp
      · exact h.filesNonEmpty p hp
      · rcases List.mem_singleton.mp hp with rfl
        exact hne
    · intro p hp h2
      rcases List.mem_append.mp hp with hp | hp
      · exact h.filesOk p hp h2
      · rcases List.mem_singleton.mp hp with rfl
        exact h.curOk h2
    · rw [List.map_append, h.names, List.length_append]
      simp only [List.map_cons, List.map_nil, List.length_cons, List.length_nil]
      rw [fileNames_succ, h.idx]
    · simp [List.length_append, h.idx]
    · simp [List.map_append, List.flatten_append, List.append_assoc]
  · have hcases := not_and_or.mp hcond
    refine ⟨⟨?_, ?_, ?_, h.filesNonEmpty, h.filesOk, h.names, h.idx⟩, ?_⟩
    · simp [h.tokAcc, List.map_append, List.sum_append]
    · simp [h.byteAcc, List.map_append, List.sum_append]
    · intro h2
      rcases hcases with hnil | hok
      · have hempty : st.lines = [] := not_not.mp hnil
        rw [hempty] at h2
        exact absurd h2 (by simp)
      · push_neg at hok
        rw [List.map_append, List.sum_append, List.map_append, List.sum_append]
        constructor
        · simpa [h.tokAcc] using hok.1
        · simpa [h.byteAcc] using hok.2
    · simp [List.append_assoc]

/-- Folding a unit stream through the writer preserves the invariant and the
stream equation. -/
lemma wFold_inv (tok bl : String → Nat) (maxT maxB : Nat) (ext : String) :
    ∀ (units : List String) (st : WState), WInv tok bl maxT maxB ext st →
      WInv tok bl maxT maxB ext (units.foldl (wStep tok bl maxT maxB ext) st) ∧
      (((units.foldl (wStep tok bl maxT maxB ext) st).written.map Prod.snd).flatten ++
          (units.foldl (wStep tok bl maxT maxB ext) st).lines =
        (st.written.map Prod.snd).flatten ++ st.lines ++ units) := by
  intro units
  induction units with
  | nil => intro st h; exact ⟨h, by simp⟩
  | cons u rest ih =>
    intro st h
    rw [List.foldl_cons]
    obtain ⟨h1, heq1⟩ := wStep_inv h u
    obtain ⟨h2, heq2⟩ := ih _ h1
    refine ⟨h2, ?_⟩
    rw [heq2, heq1]
    simp [List.append_assoc]

/-- A batch within ceilings that holds an oversized unit must be that unit
alone. -/
lemma batch_singleton_of_oversized (tok bl : String → Nat) (maxT maxB : Nat)
    (l : List String) (hne : l ≠ [])
    (hok : 2 ≤ l.length → (l.map tok).sum ≤ maxT ∧ (l.map bl).sum ≤ maxB)
    (u : String) (hu : u ∈ l) (hover : maxT < tok u ∨ maxB < bl u) : l = [u] := by
  match l, hne with
  | [x], _ =>
    rcases List.mem_singleton.mp hu with rfl
    rfl
  | x :: y :: rest, _ =>
    exfalso
    obtain ⟨hT, hB⟩ := hok (by simp)
    rcases hover with hover | hover
    · have hle : tok u ≤ ((x :: y :: rest).map tok).sum :=
        List.single_le_sum (fun a _ => Nat.zero_le a) _ (List.mem_map_of_mem tok hu)
      omega
    · have hle : bl u ≤ ((x :: y :: rest).map bl).sum :=
        List.single_le_sum (fun a _ => Nat.zero_le a) _ (List.mem_map_of_mem bl hu)
      omega

/-- Full specification of the shared splitting loop on a serialized unit
stream. -/
lemma runWriter_spec (tok bl : String → Nat) (maxT maxB : Nat) (ext : String)
    (units : List String) :
    (((runWriter tok bl maxT maxB ext units).map Prod.snd).flatten = units)
    ∧ (∀ p ∈ runWriter tok bl maxT maxB ext units, p.2 ≠ [])
    ∧ (∀ p ∈ runWriter tok bl maxT maxB ext units, 2 ≤ p.2.length →
        (p.2.map tok).sum ≤ maxT ∧ (p.2.map bl).sum ≤ maxB)
    ∧ ((runWriter tok bl maxT maxB ext units).map Prod.fst =
        fileNames ext (runWriter tok bl maxT maxB ext units).length)
    ∧ (∀ p ∈ runWriter tok bl maxT maxB ext units, ∀ u ∈ p.2,
        (maxT < tok u ∨ maxB < bl u) → p.2 = [u]) := by
  have hinit : WInv tok bl maxT maxB ext ⟨1, [], 0, 0, []⟩ := by
    refine ⟨rfl, rfl, ?_, ?_, ?_, rfl, rfl⟩
    · intro h2
      exact absurd h2 (by simp)
    · intro p hp
      cases hp
    · intro p hp
      cases hp
  obtain ⟨hfin, heq⟩ := wFold_inv tok bl maxT maxB ext units ⟨1, [], 0, 0, []⟩ hinit
  rw [runWriter, wFinish]
  simp only [List.map_nil, List.flatten_nil, List.nil_append] at heq
  split_ifs with hl
  · have hflat : ((((units.foldl (wStep tok bl maxT maxB ext) ⟨1, [], 0, 0, []⟩)).written ++
        [(batchName ext (units.foldl (wStep tok bl maxT maxB ext) ⟨1, [], 0, 0, []⟩).fileIndex,
          (units.foldl (wStep tok bl maxT maxB ext) ⟨1, [], 0, 0, []⟩).lines)]).map
          Prod.snd).flatten = units := by
      rw [List.map_append, List.flatten_append]
      simpa using heq
    refine ⟨hflat, ?_, ?_, ?_, ?_⟩
    · intro p hp
      rcases List.mem_append.mp hp with hp | hp
      · exact hfin.filesNonEmpty p hp
      · rcases List.mem_singleton.mp hp with rfl
        exact hl
    · intro p hp
      rcases List.mem_append.mp hp with hp | hp
      · exact hfin.filesOk p hp
      · rcases List.mem_singleton.mp hp with rfl
        exact hfin.curOk
    · rw [List.map_append, hfin.names, List.length_append]
      simp only [List.map_cons, List.map_nil, List.length_cons, List.length_nil]
      rw [fileNames_succ, hfin.idx]
    · intro p hp u hu hover
      rcases List.mem_append.mp hp with hp | hp
      · exact batch_singleton_of_oversized tok bl maxT maxB p.2
          (hfin.filesNonEmpty p hp) (hfin.filesOk p hp) u hu hover
      · rcases List.mem_singleton.mp hp with rfl
        exact batch_singleton_of_oversized tok bl maxT maxB _ hl hfin.curOk u hu hover
  · have hempty : (units.foldl (wStep tok bl maxT maxB ext) ⟨1, [], 0, 0, []⟩).lines = [] :=
      not_not.mp hl
    refine ⟨?_, hfin.filesNonEmpty, hfin.filesOk, hfin.names, ?_⟩
    · rw [hempty, List.append_nil] at heq
      exact heq
    · intro p hp u hu hover
      exact batch_singleton_of_oversized tok bl maxT maxB p.2
        (hfin.filesNonEmpty p hp) (hfin.filesOk p hp) u hu hover

/-- C1.  Both the JSONL and the Markdown writer place each record's
serialization in exactly one output file, in input order; every file holding
two or more records is within both the token and the byte ceiling; a record
exceeding a ceiling sits in a file alone; no empty file is written, the
final non-empty batch is flushed at end of input, and files are named
`combos{ext}`, `combos_2{ext}`, `combos_3{ext}`, …  (`count_tokens` and the
two ceilings are parameters; the invariants hold for every choice). -/
theorem size_bounded_writer_spec (tok : String → Nat) (maxT maxB : Nat) (compress : Bool)
    (combos : List NormCombo) :
    ((((write_jsonl_files tok maxT maxB compress combos).map Prod.snd).flatten =
        combos.map fun c => dumpCombo c ++ "\n")
    ∧ (∀ p ∈ write_jsonl_files tok maxT maxB compress combos, p.2 ≠ [])
    ∧ (∀ p ∈ write_jsonl_files tok maxT maxB compress combos, 2 ≤ p.2.length →
        (p.2.map tok).sum ≤ maxT ∧ (p.2.map utf8Len).sum ≤ maxB)
    ∧ ((write_jsonl_files tok maxT maxB compress combos).map Prod.fst =
        fileNames (if compress then ".jsonl.gz" else ".jsonl")
          (write_jsonl_files tok maxT maxB compress combos).length)
    ∧ (∀ p ∈ write_jsonl_files tok maxT maxB compress combos, ∀ u ∈ p.2,
        (maxT < tok u ∨ maxB < utf8Len u) → p.2 = [u]))
    ∧ ((((write_markdown_files tok maxT maxB compress combos).map Prod.snd).flatten =
        combos.map mdRender)
    ∧ (∀ p ∈ write_markdown_files tok maxT maxB compress combos, p.2 ≠ [])
    ∧ (∀ p ∈ write_markdown_files tok maxT maxB compress combos, 2 ≤ p.2.length →
        (p.2.map tok).sum ≤ maxT ∧ (p.2.map utf8Len).sum ≤ maxB)
    ∧ ((write_markdown_files tok maxT maxB compress combos).map Prod.fst =
        fileNames (if compress then ".md.gz" else ".md")
          (write_markdown_files tok maxT maxB compress combos).length)
    ∧ (∀ p ∈ write_markdown_files tok maxT maxB compress combos, ∀ u ∈ p.2,
        (maxT < tok u ∨ maxB < utf8Len u) → p.2 = [u])) :=
  ⟨runWriter_spec tok utf8Len maxT maxB (if compress then ".jsonl.gz" else ".jsonl")
      (combos.map fun c => dumpCombo c ++ "\n"),
   runWriter_spec tok utf8Len maxT maxB (if compress then ".md.gz" else ".md")
      (combos.map mdRender)⟩

/-- Witness for C1: the single-combo stream produces one non-empty file. -/
theorem size_bounded_writer_spec_witness :
    (("combos.jsonl.gz", ["\x7b\x7d\n"]) : String × List String).2 ≠ [] :=
  (size_bounded_writer_spec (fun _ => 0) 0 0 true [{}]).1.2.1
    ("combos.jsonl.gz", ["\x7b\x7d\n"]) (by decide)

/-! ## C9: JSONL line shape -/

/-- Appending preserves newline-freeness. -/
lemma noNL_append {a b : String} (ha : noNL a) (hb : noNL b) : noNL (a ++ b) := by
  rw [noNL, String.data_append]
  intro h
  rcases List.mem_append.mp h with h | h
  · exact ha h
  · exact hb h

/-- Digit characters are never a newline. -/
lemma digitChar_ne_nl (n : Nat) : digitChar n ≠ '\n' := by
  unfold digitChar
  split <;> decide

/-- Hex digit characters are never a newline. -/
lemma hexDigitChar_ne_nl (n : Nat) : hexDigitChar n ≠ '\n' := by
  unfold hexDigitChar
  split <;> decide

/-- Decimal digit runs contain no newline. -/
lemma natDigitsAux_ne_nl : ∀ (fuel n : Nat), ∀ c ∈ natDigitsAux fuel n, c ≠ '\n' := by
  intro fuel
  induction fuel with
  | zero => intro n c hc; cases hc
  | succ fuel ih =>
    intro n c hc
    rw [natDigitsAux] at hc
    split_ifs at hc
    · rcases List.mem_singleton.mp hc with rfl
      exact digitChar_ne_nl n
    · rcases List.mem_append.mp hc with hc | hc
      · exact ih _ c hc
      · rcases List.mem_singleton.mp hc with rfl
        exact digitChar_ne_nl _

/-- `str(n)` contains no newline. -/
lemma noNL_natRepr (n : Nat) : noNL (natRepr n) := by
  intro h
  exact natDigitsAux_ne_nl _ _ '\n' h rfl

/-- `str(i)` contains no newline. -/
lemma noNL_intRepr (i : Int) : noNL (intRepr i) := by
  rw [intRepr]
  split_ifs
  · exact noNL_append (by decide) (noNL_natRepr _)
  · exact noNL_natRepr _

/-- JSON character escapes never emit a raw newline. -/
lemma escapeJChar_ne_nl (c : Char) : ∀ x ∈ escapeJChar c, x ≠ '\n' := by
  intro x hx
  rw [escapeJChar] at hx
  split_ifs at hx with h1 h2 h3 h4 h5 h6 h7 h8
  · simp only [List.mem_cons, List.not_mem_nil, or_false] at hx
    rcases hx with rfl | rfl <;> decide
  · simp only [List.mem_cons, List.not_mem_nil, or_false] at hx
    rcases hx with rfl | rfl <;> decide
  · simp only [List.mem_cons, List.not_mem_nil, or_false] at hx
    rcases hx with rfl | rfl <;> decide
  · simp only [List.mem_cons, List.not_mem_nil, or_false] at hx
    rcases hx with rfl | rfl <;> decide
  · simp only [List.mem_cons, List.not_mem_nil, or_false] at hx
    rcases hx with rfl | rfl <;> decide
  · simp only [List.mem_cons, List.not_mem_nil, or_false] at hx
    rcases hx with rfl | rfl <;> decide
  · simp only [List.mem_cons, List.not_mem_nil, or_false] at hx
    rcases hx with rfl | rfl <;> decide
  · simp only [List.mem_cons, List.not_mem_nil, or_false] at hx
    rcases hx with rfl | rfl | rfl | rfl | rfl | rfl
    · decide
    · decide
    · decide
    · decide
    · exact hexDigitChar_ne_nl _
    · exact hexDigitChar_ne_nl _
  · simp only [List.mem_cons, List.not_mem_nil, or_false] at hx
    subst hx
    intro hc
    rw [hc] at h3
    exact h3 (by decide)

/-- Encoded JSON strings contain no raw newline. -/
lemma noNL_encodeJString (s : String) : noNL (encodeJString s) := by
  rw [noNL, encodeJString]
  intro h
  rcases List.mem_cons.mp h with h | h
  · cases h
  · rcases List.mem_append.mp h with h | h
    · obtain ⟨l, hl, hnl⟩ := List.mem_flatten.mp h
      obtain ⟨c, _, rfl⟩ := List.mem_map.mp hl
      exact escapeJChar_ne_nl c '\n' hnl rfl
    · rcases List.mem_singleton.mp h with h
      cases h

/-- Joining newline-free parts with a newline-free separator stays
newline-free. -/
lemma noNL_joinSep (sep : String) (hsep : noNL sep) :
    ∀ parts : List String, (∀ p ∈ parts, noNL p) → noNL (joinSep sep parts) := by
  intro parts
  induction parts with
  | nil =>
    intro _
    rw [joinSep]
    decide
  | cons x xs ih =>
    intro h
    cases xs with
    | nil => exact h x (List.mem_singleton.mpr rfl)
    | cons y ys =>
      rw [joinSep]
      exact noNL_append (noNL_append (h x (List.mem_cons_self x _)) hsep)
        (ih fun p hp => h p (List.mem_cons_of_mem x hp))

/-- Members of a `jField` are newline-free whenever the value serializer is. -/
lemma noNL_of_mem_jField {α : Type} (k : String) (f : α → String)
    (hf : ∀ v, noNL (f v)) (o : Option α) : ∀ s ∈ jField k f o, noNL s := by
  intro s hs
  cases o with
  | none => cases hs
  | some v =>
    rcases List.mem_singleton.mp hs with rfl
    exact noNL_append (noNL_append (noNL_encodeJString k) (by decide)) (hf v)

/-- Concatenating two member lists of newline-free strings. -/
lemma noNL_forall_append {l₁ l₂ : List String}
    (h₁ : ∀ s ∈ l₁, noNL s) (h₂ : ∀ s ∈ l₂, noNL s) : ∀ s ∈ l₁ ++ l₂, noNL s := by
  intro s hs
  rcases List.mem_append.mp hs with hs | hs
  · exact h₁ s hs
  · exact h₂ s hs

/-- Serialized string maps are newline-free. -/
lemma noNL_dumpStrMap (m : List (String × String)) : noNL (dumpStrMap m) := by
  rw [dumpStrMap]
  refine noNL_append (noNL_append (by decide) ?_) (by decide)
  refine noNL_joinSep ", " (by decide) _ ?_
  intro s hs
  obtain ⟨kv, _, rfl⟩ := List.mem_map.mp hs
  exact noNL_append (noNL_append (noNL_encodeJString _) (by decide)) (noNL_encodeJString _)

/-- Serialized arrays are newline-free when the element serializer is. -/
lemma noNL_dumpArr {α : Type} (f : α → String) (hf : ∀ x, noNL (f x)) (l : List α) :
    noNL (dumpArr f l) := by
  rw [dumpArr]
  refine noNL_append (noNL_append (by decide) ?_) (by decide)
  refine noNL_joinSep ", " (by decide) _ ?_
  intro s hs
  obtain ⟨x, _, rfl⟩ := List.mem_map.mp hs
  exact hf x

/-- Serialized card references are newline-free. -/
lemma noNL_dumpCardInfo (ci : CardInfo) : noNL (dumpCardInfo ci) := by
  rw [dumpCardInfo]
  refine noNL_append (noNL_append (by decide) ?_) (by decide)
  refine noNL_joinSep ", " (by decide) _ ?_
  refine noNL_forall_append (noNL_forall_append ?_ ?_) ?_ <;>
    exact noNL_of_mem_jField _ _ noNL_encodeJString _

/-- Serialized features are newline-free. -/
lemma noNL_dumpFeature (f : Feature) : noNL (dumpFeature f) := by
  rw [dumpFeature]
  exact noNL_append (noNL_append (noNL_append (noNL_append (by decide)
    (noNL_encodeJString _)) (by decide)) (noNL_encodeJString _)) (by decide)

/-- A serialized combo line contains no raw newline: the trailing `"\n"`
appended by the writer is the only newline on the line. -/
lemma noNL_dumpCombo (c : NormCombo) : noNL (dumpCombo c) := by
  rw [dumpCombo]
  refine noNL_append (noNL_append (by decide) ?_) (by decide)
  refine noNL_joinSep ", " (by decide) _ ?_
  repeat' refine noNL_forall_append ?_ ?_
  · exact noNL_of_mem_jField _ _ noNL_encodeJString _
  · exact noNL_of_mem_jField _ _ noNL_encodeJString _
  · exact noNL_of_mem_jField _ _ noNL_encodeJString _
  · exact noNL_of_mem_jField _ _ noNL_encodeJString _
  · exact noNL_of_mem_jField _ _ noNL_intRepr _
  · exact noNL_of_mem_jField _ _ noNL_encodeJString _
  · exact noNL_of_mem_jField _ _ noNL_encodeJString _
  · exact noNL_of_mem_jField _ _ noNL_intRepr _
  · exact noNL_of_mem_jField _ _ noNL_intRepr _
  · exact noNL_of_mem_jField _ _ noNL_dumpStrMap _
  · exact noNL_of_mem_jField _ _ noNL_dumpStrMap _
  · exact noNL_of_mem_jField _ _ noNL_intRepr _
  · exact noNL_of_mem_jField _ _ (noNL_dumpArr dumpCardInfo noNL_dumpCardInfo) _
  · exact noNL_of_mem_jField _ _ (noNL_dumpArr dumpFeature noNL_dumpFeature) _
  · exact noNL_of_mem_jField _ _ noNL_encodeJString _
  · exact noNL_of_mem_jField _ _ noNL_encodeJString _

/-- Characters that need no escape pass through unchanged. -/
lemma escapeJChar_safe (c : Char) (h1 : c ≠ '"') (h2 : c ≠ '\\')
    (h3 : ¬(c.val < 0x20)) : escapeJChar c = [c] := by
  rw [escapeJChar, if_neg h2, if_neg h1, if_neg h3]

/-- Strings without quote, backslash or control characters — in particular
any plain non-ASCII text — are embedded verbatim between quotes. -/
lemma encodeJString_safe (s : String)
    (h : ∀ c ∈ s.data, c ≠ '"' ∧ c ≠ '\\' ∧ ¬(c.val < 0x20)) :
    encodeJString s = "\"" ++ s ++ "\"" := by
  apply String.ext
  rw [encodeJString]
  have hflat : ∀ l : List Char, (∀ c ∈ l, c ≠ '"' ∧ c ≠ '\\' ∧ ¬(c.val < 0x20)) →
      (l.map escapeJChar).flatten = l := by
    intro l
    induction l with
    | nil => intro _; rfl
    | cons c cs ih =>
      intro hl
      obtain ⟨h1, h2, h3⟩ := hl c (List.mem_cons_self c cs)
      rw [List.map_cons, List.flatten_cons, escapeJChar_safe c h1 h2 h3,
        ih fun x hx => hl x (List.mem_cons_of_mem c hx)]
      rfl
  simp [String.data_append, hflat s.data h]

/-! The compact serialization asserted by the spec (the separators
`build.to_json` uses). -/

/-- C9 (amended).  Every line the JSONL writer emits is exactly one JSON
object — serialized with Python's default separators, i.e. a single space
after each member comma and each key colon — followed by a single newline:
the serialized object itself never contains a newline, and non-ASCII
characters (indeed all characters needing no JSON escape) are preserved
verbatim, un-escaped. -/
theorem jsonl_line_format_spec (tok : String → Nat) (maxT maxB : Nat)
    (compress : Bool) (combos : List NormCombo) :
    (((write_jsonl_files tok maxT maxB compress combos).map Prod.snd).flatten =
        combos.map fun c => dumpCombo c ++ "\n")
    ∧ (∀ c : NormCombo, '\n' ∉ (dumpCombo c).data)
    ∧ (∀ s : String, (∀ ch ∈ s.data, ch ≠ '"' ∧ ch ≠ '\\' ∧ ¬(ch.val < 0x20)) →
        encodeJString s = "\"" ++ s ++ "\"") :=
  ⟨(runWriter_spec tok utf8Len maxT maxB (if compress then ".jsonl.gz" else ".jsonl")
      (combos.map fun c => dumpCombo c ++ "\n")).1,
   noNL_dumpCombo, encodeJString_safe⟩

/-- Counterexample to C9 as stated: the writer serializes with Python's
default separators, so a two-field combo's line has a space after the comma
and after each colon — it is not the compact form with no whitespace
between tokens. -/
theorem jsonl_line_format_counterexample :
    dumpCombo { id := some "x", status := some "ok" } =
      "\x7b\"id\": \"x\", \"status\": \"ok\"\x7d"
    ∧ dumpComboCompact { id := some "x", status := some "ok" } =
      "\x7b\"id\":\"x\",\"status\":\"ok\"\x7d"
    ∧ dumpCombo { id := some "x", status := some "ok" } ≠
      dumpComboCompact { id := some "x", status := some "ok" } := by
  refine ⟨by decide, by decide, by decide⟩

/-- Witness for C9: a non-ASCII string is embedded verbatim. -/
theorem jsonl_line_format_spec_witness :
    encodeJString "héllo" = "\"" ++ "héllo" ++ "\"" :=
  (jsonl_line_format_spec (fun _ => 0) 0 0 true []).2.2 "héllo" (by decide)
